import Mathlib

/-!
# gar: a shallow embedding of `main.go`

The Go program archives directory trees with `archive/tar` and lists or
extracts archives through one loop, `iterateTarEntries`, that hands every
decoded header to an injected handler.

The embedding keeps the functions of `main.go` under their own names and
passes the process state explicitly as a `World`: a file system, the
working directory and what has been printed on standard output.  The parts
of the Go standard library the program calls (`path/filepath`, `os`, `io`,
`archive/tar`, `compress/gzip`) are modelled after their documented
behaviour on a POSIX system without symbolic links and without permission
or resource failures; the byte-level tar and gzip formats are not
modelled, the two codecs are a parameter (`Codec`).
-/

namespace Gar

/-! ## Errors -/

/-- POSIX error numbers the modelled system calls can report. -/
inductive Errno
  | ENOENT
  | EEXIST
  | ENOTDIR
  | EISDIR
  deriving DecidableEq, Repr

/-- Go `error` values.  `EOF` and `ErrUnexpectedEOF` are the sentinels of
package `io`, `tarErrHeader`, `tarErrWriteTooLong` and `gzipErrHeader` those
of the two codecs, `pathError` is `*fs.PathError`, and `errorf format inner` is
`fmt.Errorf(format, ..., inner)` with the `%w` verb: the format string names
the call site, the rendered text is not modelled. -/
inductive GoError
  | EOF
  | ErrUnexpectedEOF
  | tarErrHeader
  | tarErrWriteTooLong
  | gzipErrHeader
  | pathError (op : String) (path : String) (errno : Errno)
  | errorf (format : String) (inner : GoError)
  deriving DecidableEq, Repr

/-- A byte. -/
abbrev Byte := Nat

/-- An `io.Reader`: the bytes it yields, then the error it reports
(`io.EOF` at a regular end). -/
structure Reader where
  data : List Byte
  err : GoError
  deriving DecidableEq, Repr

/-! ## `path/filepath` -/

/-- Split at every slash; `"a//b/"` gives `a`, the empty piece, `b`, the
empty piece. -/
def splitSlash : List Char → List (List Char)
  | [] => [[]]
  | c :: cs =>
    if c = '/' then [] :: splitSlash cs
    else
      match splitSlash cs with
      | [] => [[c]]
      | x :: xs => (c :: x) :: xs

/-- All pieces of a path between slashes, empty ones included. -/
def rawElements (s : String) : List String :=
  (splitSlash s.data).map String.mk

/-- The non-empty pieces of a path between slashes. -/
def elements (s : String) : List String :=
  (rawElements s).filter (fun e => e ≠ "")

/-- Whether the path starts with a slash. -/
def isAbs (s : String) : Bool :=
  s.data.head? = some '/'

/-- One step of `filepath.Clean` over the elements kept so far: `.` is
dropped, `..` removes the element before it, is dropped at the root and is
kept at the start of a relative path. -/
def cleanStep (rooted : Bool) (acc : List String) (c : String) : List String :=
  if c = "." then acc
  else if c = ".." then
    match acc.getLast? with
    | none => if rooted then [] else [".."]
    | some l => if l = ".." then acc ++ [".."] else acc.dropLast
  else acc ++ [c]

/-- The elements of the cleaned path. -/
def cleanElems (rooted : Bool) (els : List String) : List String :=
  els.foldl (cleanStep rooted) []

/-- Elements written with one slash between them. -/
def joinSlash : List String → List Char
  | [] => []
  | [c] => c.data
  | c :: d :: cs => c.data ++ '/' :: joinSlash (d :: cs)

/-- The path that has the given elements: `/` in front when rooted, `.`
for the empty relative path. -/
def render (rooted : Bool) (cs : List String) : String :=
  if rooted then String.mk ('/' :: joinSlash cs)
  else if cs = [] then "."
  else String.mk (joinSlash cs)

/-- Go `filepath.Clean`: the shortest path equivalent to `s` by purely
lexical processing. -/
def Clean (s : String) : String :=
  render (isAbs s) (cleanElems (isAbs s) (elements s))

/-- Go `filepath.Join` of two elements: empty elements are ignored, the rest
is joined with a slash and cleaned; all empty gives the empty string. -/
def Join (a b : String) : String :=
  if a ≠ "" then Clean (a ++ "/" ++ b)
  else if b ≠ "" then Clean b
  else ""

/-- Go `filepath.Base`: the last element of the path, `.` for the empty
path and `/` for a path of slashes only. -/
def Base (s : String) : String :=
  if s = "" then "."
  else (elements s).getLast?.getD "/"

/-- Go `filepath.Dir`: the cleaned path up to and including the last
slash. -/
def Dir (s : String) : String :=
  Clean (String.mk (s.data.reverse.dropWhile (fun c => c ≠ '/')).reverse)

/-- The `basename` of package `os`, which gives `FileInfo.Name` of a path
handed to `os.Stat`: the last element, trailing slashes removed. -/
def basename (s : String) : String :=
  if s = "" then ""
  else (elements s).getLast?.getD "/"

/-! ## The file system and package `os` -/

/-- A file system object: a regular file with its permission bits and
content, or a directory with its permission bits. -/
inductive Node
  | file (mode : Nat) (data : List Byte)
  | dir (mode : Nat)
  deriving DecidableEq, Repr

/-- A file system: the objects by absolute path, a path being the list of
its elements from the root.  The root directory always exists. -/
abbrev FS := List (List String × Node)

/-- The object at an absolute path. -/
def FS.find (fs : FS) (p : List String) : Option Node :=
  match List.find? (fun e => decide (e.1 = p)) fs with
  | some e => some e.2
  | none => if p = [] then some (Node.dir 0o755) else none

/-- Put an object at an absolute path, replacing what was there. -/
def FS.set (fs : FS) (p : List String) (n : Node) : FS :=
  (p, n) :: fs.filter (fun e => decide (e.1 ≠ p))

/-- The process state the program reads and changes. -/
structure World where
  fs : FS
  cwd : List String
  stdout : String
  deriving DecidableEq, Repr

/-- Kernel path resolution from directory `cur` over the remaining
elements: every directory walked through must exist, an empty element and
`.` stay, `..` goes to the parent (the root is its own parent). -/
def walk (fs : FS) : List String → List String → Except Errno (List String)
  | cur, [] => .ok cur
  | cur, c :: rest =>
    match fs.find cur with
    | none => .error .ENOENT
    | some (Node.file _ _) => .error .ENOTDIR
    | some (Node.dir _) =>
      if c = "" ∨ c = "." then walk fs cur rest
      else if c = ".." then walk fs cur.dropLast rest
      else walk fs (cur ++ [c]) rest

/-- The absolute path a path string names (the object need not exist, its
parent directory does); the empty string names nothing. -/
def resolve (w : World) (path : String) : Except Errno (List String) :=
  if path = "" then .error .ENOENT
  else walk w.fs (if isAbs path then [] else w.cwd) (rawElements path)

/-- Drop the empty elements a run of trailing slashes leaves. -/
def dropTrailingEmpty (els : List String) : List String :=
  (els.reverse.dropWhile (fun e => decide (e = ""))).reverse

/-- The path a new directory is to be made at: as `resolve`, but trailing
slashes are allowed on a name that does not exist yet. -/
def resolveNew (w : World) (path : String) : Except Errno (List String) :=
  if path = "" then .error .ENOENT
  else walk w.fs (if isAbs path then [] else w.cwd) (dropTrailingEmpty (rawElements path))

/-- What `os.Stat` returns: `Name` is the base name of the path string that
was asked for. -/
structure FileInfo where
  Name : String
  node : Node
  deriving DecidableEq, Repr

/-- Go `FileInfo.IsDir`. -/
def FileInfo.IsDir (fi : FileInfo) : Bool :=
  match fi.node with
  | Node.dir _ => true
  | Node.file _ _ => false

/-- Go `FileInfo.Size` (of a regular file). -/
def FileInfo.Size (fi : FileInfo) : Int :=
  match fi.node with
  | Node.dir _ => 0
  | Node.file _ data => data.length

/-- The permission bits of `FileInfo.Mode`. -/
def FileInfo.Perm (fi : FileInfo) : Nat :=
  match fi.node with
  | Node.dir m => m
  | Node.file m _ => m

/-- Go `os.Stat`. -/
def Stat (w : World) (path : String) : Except GoError FileInfo :=
  match resolve w path with
  | .error e => .error (.pathError "stat" path e)
  | .ok p =>
    match w.fs.find p with
    | none => .error (.pathError "stat" path .ENOENT)
    | some n => .ok { Name := basename path, node := n }

/-- Go `os.FileMode(m)` of an `int64`, cut to the nine permission bits the
system calls use. -/
def FileMode (m : Int) : Nat :=
  ((m % 4294967296).toNat) % 512

/-- Go `os.Mkdir`. -/
def Mkdir (w : World) (path : String) (perm : Nat) : Option GoError × World :=
  match resolveNew w path with
  | .error e => (some (.pathError "mkdir" path e), w)
  | .ok p =>
    match w.fs.find p with
    | some _ => (some (.pathError "mkdir" path .EEXIST), w)
    | none => (none, { w with fs := w.fs.set p (Node.dir perm) })

/-- The parent that `os.MkdirAll` recurses into: the path before the slash
that precedes its last element, if there is one. -/
def parentOf (path : String) : Option String :=
  let stripped := path.data.reverse.dropWhile (fun c => c = '/')
  match (stripped.dropWhile (fun c => c ≠ '/')) with
  | [] => none
  | _ :: before => if before = [] then none else some (String.mk before.reverse)

/-- Go `os.MkdirAll`, with the recursion over ever shorter parents bounded
by `fuel`. -/
def MkdirAllAux : Nat → World → String → Nat → Option GoError × World
  | 0, w, path, _ => (some (.pathError "mkdir" path .ENOENT), w)
  | fuel + 1, w, path, perm =>
    match Stat w path with
    | .ok fi =>
      if fi.IsDir then (none, w) else (some (.pathError "mkdir" path .ENOTDIR), w)
    | .error _ =>
      let made : Option GoError × World :=
        match parentOf path with
        | none => (none, w)
        | some parent => MkdirAllAux fuel w parent perm
      match made with
      | (some err, w1) => (some err, w1)
      | (none, w1) =>
        match Mkdir w1 path perm with
        | (none, w2) => (none, w2)
        | (some err, w2) =>
          match Stat w2 path with
          | .ok fi => if fi.IsDir then (none, w2) else (some err, w2)
          | .error _ => (some err, w2)

/-- Go `os.MkdirAll`: make the directory and every missing parent; no error
when the directory exists. -/
def MkdirAll (w : World) (path : String) (perm : Nat) : Option GoError × World :=
  MkdirAllAux (path.length + 1) w path perm

/-- Go `os.Chmod`. -/
def Chmod (w : World) (path : String) (mode : Nat) : Option GoError × World :=
  match resolve w path with
  | .error e => (some (.pathError "chmod" path e), w)
  | .ok p =>
    match w.fs.find p with
    | none => (some (.pathError "chmod" path .ENOENT), w)
    | some (Node.dir _) => (none, { w with fs := w.fs.set p (Node.dir mode) })
    | some (Node.file _ d) => (none, { w with fs := w.fs.set p (Node.file mode d) })

/-- Go `os.OpenFile(path, O_CREATE|O_WRONLY|O_TRUNC, perm)`: the handle is
the absolute path of the file, which is empty afterwards; an existing file
keeps its mode, a new one gets the permission bits asked for (the umask is
taken to be 0). -/
def OpenFile (w : World) (path : String) (perm : Nat) : Except GoError (List String × World) :=
  match resolve w path with
  | .error e => .error (.pathError "open" path e)
  | .ok p =>
    match w.fs.find p with
    | some (Node.dir _) => .error (.pathError "open" path .EISDIR)
    | some (Node.file m _) => .ok (p, { w with fs := w.fs.set p (Node.file m []) })
    | none => .ok (p, { w with fs := w.fs.set p (Node.file perm []) })

/-- Go `os.Open`: the reader over the content of a file; reading an opened
directory fails. -/
def Open (w : World) (path : String) : Except GoError Reader :=
  match resolve w path with
  | .error e => .error (.pathError "open" path e)
  | .ok p =>
    match w.fs.find p with
    | none => .error (.pathError "open" path .ENOENT)
    | some (Node.dir _) => .ok ⟨[], .pathError "read" path .EISDIR⟩
    | some (Node.file _ d) => .ok ⟨d, .EOF⟩

/-- Append bytes to the file behind a handle. -/
def FS.append (fs : FS) (p : List String) (bytes : List Byte) : FS :=
  match fs.find p with
  | some (Node.file m d) => fs.set p (Node.file m (d ++ bytes))
  | _ => fs

/-- The names of the objects directly inside the directory at `p`. -/
def childNames (fs : FS) (p : List String) : List String :=
  fs.filterMap (fun e => if e.1 ≠ [] ∧ e.1.dropLast = p then e.1.getLast? else none)

/-- Whether one name comes before or is equal to another in the order of
their characters, the order `os.ReadDir` sorts in. -/
def charsLe : List Char → List Char → Bool
  | [], _ => true
  | _ :: _, [] => false
  | a :: as, b :: bs =>
    if a.toNat < b.toNat then true
    else if b.toNat < a.toNat then false
    else charsLe as bs

/-- Go `os.ReadDir`: the names of the entries of a directory, sorted. -/
def ReadDir (w : World) (path : String) : Except GoError (List String) :=
  match resolve w path with
  | .error e => .error (.pathError "open" path e)
  | .ok p =>
    match w.fs.find p with
    | none => .error (.pathError "open" path .ENOENT)
    | some (Node.file _ _) => .error (.pathError "readdirent" path .ENOTDIR)
    | some (Node.dir _) =>
      .ok ((childNames w.fs p).dedup.insertionSort (fun a b => charsLe a.data b.data = true))

/-- Go `io.CopyN(f, r, n)` into the file behind handle `f`: the number of
bytes written, the error and the world after.  Fewer than `n` bytes give an
error, `io.EOF` when the reader ended regularly. -/
def CopyN (w : World) (f : List String) (r : Reader) (n : Int) : Int × Option GoError × World :=
  let bytes := r.data.take n.toNat
  let w1 := { w with fs := w.fs.append f bytes }
  if (bytes.length : Int) = n then (n, none, w1)
  else if (bytes.length : Int) < n then ((bytes.length : Int), some r.err, w1)
  else ((bytes.length : Int), none, w1)

/-! ## `archive/tar` and `compress/gzip` -/

/-- The fields of `tar.Header` the program reads or sets. -/
structure Header where
  Name : String
  Typeflag : Char
  Size : Int
  Mode : Int
  deriving DecidableEq, Repr

/-- Go `tar.TypeReg`. -/
def TypeReg : Char := '0'

/-- Go `tar.TypeDir`. -/
def TypeDir : Char := '5'

/-- What `tar.Reader` makes of a byte stream: the entries successive calls
of `Next` return, each with the payload bytes the stream holds for it, and
the error of the first call that returns no header: `io.EOF` at the end
marker, `io.ErrUnexpectedEOF` in a stream that is cut short,
`tar.ErrHeader` or a read error otherwise. -/
structure Decoded where
  entries : List (Header × List Byte)
  final : GoError
  deriving DecidableEq, Repr

/-- The two codecs of the standard library, a parameter of the model:
`untar` is `tar.NewReader` with the `Next` calls that follow,
`gunzip` is `gzip.NewReader` (which reads the gzip header at once and can
fail), `tar` is the byte stream a `tar.Writer` leaves for the entries
written to it once it is closed, `tarOpen` is the bytes it has written for
them while it is still open, and `checkHeader` is the error `WriteHeader`
returns for a header it cannot encode. -/
structure Codec where
  untar : Reader → Decoded
  gunzip : Reader → Except GoError Reader
  tar : List (Header × List Byte) → List Byte
  tarOpen : List (Header × List Byte) → List Byte
  checkHeader : Header → Option GoError

/-- The payload reader a handler gets for an entry: `tar.Reader.Read` yields
at most `Size` bytes and reports `io.ErrUnexpectedEOF` when the stream
holds fewer. -/
def payloadReader (h : Header) (payload : List Byte) : Reader :=
  ⟨payload.take h.Size.toNat,
    if (payload.length : Int) < h.Size then .ErrUnexpectedEOF else .EOF⟩

/-- Go `tar.FileInfoHeader(fi, "")`: name, size and mode of the file; a
directory has size 0 and a slash appended to its name.  It fails on file
types the file system of the model does not have. -/
def FileInfoHeader (fi : FileInfo) : Except GoError Header :=
  match fi.node with
  | Node.file m d =>
    .ok { Name := fi.Name, Typeflag := TypeReg, Size := d.length, Mode := m }
  | Node.dir m =>
    .ok { Name := fi.Name ++ "/", Typeflag := TypeDir, Size := 0, Mode := m }

/-- A `tar.Writer`: the entries written so far, the payload of the last one
still growing. -/
abbrev TarWriter := List (Header × List Byte)

/-- Go `tar.Writer.WriteHeader`. -/
def WriteHeader (c : Codec) (tw : TarWriter) (h : Header) : Option GoError × TarWriter :=
  match c.checkHeader h with
  | some err => (some err, tw)
  | none => (none, tw ++ [(h, [])])

/-- Append bytes to the payload of the last entry. -/
def TarWriter.write : TarWriter → List Byte → TarWriter
  | [], _ => []
  | [(h, p)], bytes => [(h, p ++ bytes)]
  | e :: f :: rest, bytes => e :: TarWriter.write (f :: rest) bytes

/-- Go `io.Copy(w, file)` into a `tar.Writer`: all bytes of the reader go to
the current entry; only an error other than `io.EOF` is returned. -/
def Copy (tw : TarWriter) (file : Reader) : Option GoError × TarWriter :=
  (if file.err = .EOF then none else some file.err, tw.write file.data)

/-! ## `main.go` -/

/-- The Go type `tarOp`: a handler gets the archive path, the reader of the
entry's payload and the header, and returns its error.  The handlers of the
program use the `*tar.Reader` only to read the current payload. -/
abbrev tarOp := String → Reader → Header → World → Option GoError × World

/-- Go `extractTarFile`: the first argument is ignored and the target path
is the empty string. -/
def extractTarFile (_dst : String) (r : Reader) (h : Header) (w : World) :
    Option GoError × World :=
  let targetPath := ""
  if h.Typeflag = TypeDir then
    match MkdirAll w targetPath (FileMode h.Mode) with
    | (some err, w1) => (some (.errorf "could not create dir in %s with %w" err), w1)
    | (none, w1) =>
      match Chmod w1 targetPath (FileMode h.Mode) with
      | (some err, w2) =>
        (some (.errorf "could not set permissions for dir in %s with %w" err), w2)
      | (none, w2) => (none, w2)
  else if h.Typeflag = TypeReg then
    match MkdirAll w (Dir targetPath) 0o755 with
    | (some err, w1) => (some (.errorf "couldn't open dir in %s with %w" err), w1)
    | (none, w1) =>
      match OpenFile w1 (Join targetPath h.Name) (FileMode h.Mode) with
      | .error err => (some (.errorf "couldn't open file in %s with %w" err), w1)
      | .ok (f, w2) =>
        match CopyN w2 f r h.Size with
        | (_, some err, w3) =>
          (some (.errorf "failed writing to file: %v, %d bytes, only wrote %d with %w" err), w3)
        | (_, none, w3) => (none, w3)
  else (none, w)

/-- How a call of `writeToTar` ended: it returned nil, it returned an error,
or the recursion was cut by the depth bound of the model. -/
inductive Status
  | done
  | failed (err : GoError)
  | unfinished
  deriving DecidableEq, Repr

/-- The loop over the entries of a directory in `writeToTar`: `each` is the
recursive call for one entry name, the first error ends the loop. -/
def forEntries (each : TarWriter → String → Status × TarWriter) :
    List String → TarWriter → Status × TarWriter
  | [], tw => (.done, tw)
  | e :: es, tw =>
    match each tw e with
    | (.done, tw1) => forEntries each es tw1
    | (st, tw1) => (st, tw1)

/-- Whether a path names the file the `tar.Writer` writes into. -/
def isArchive (w : World) (archive : Option (List String)) (path : String) : Bool :=
  match archive, resolve w path with
  | some dst, .ok p => decide (p = dst)
  | _, _ => false

/-- Go `writeToTar`: the header of `srcPath` is named after `baseDir` when
that is not empty, a directory is followed by its entries, a file by its
content.  `archive` is the file the `tar.Writer` writes into, when that is a
file of this file system (it is empty in `w`); every other file is as in
`w`.  When the source is the archive itself, `os.Stat` sees the bytes
written so far as its size, and the copy, which reads the file while the
header just written has made it longer, ends with `tar.ErrWriteTooLong`
after these bytes.  The first argument after `archive` bounds the depth of
the recursion. -/
def writeToTar (c : Codec) (w : World) (archive : Option (List String)) :
    Nat → TarWriter → String → String → Status × TarWriter
  | 0, tw, _, _ => (.unfinished, tw)
  | fuel + 1, tw, srcPath, baseDir =>
    match Stat w srcPath with
    | .error err => (.failed err, tw)
    | .ok fi =>
      match FileInfoHeader fi with
      | .error err => (.failed err, tw)
      | .ok h0 =>
        let h : Header := if baseDir ≠ "" then { h0 with Name := Join baseDir (Base srcPath) } else h0
        if fi.IsDir then
          match WriteHeader c tw h with
          | (some err, tw1) => (.failed err, tw1)
          | (none, tw1) =>
            match ReadDir w srcPath with
            | .error err => (.failed err, tw1)
            | .ok entries =>
              forEntries
                (fun t entry => writeToTar c w archive fuel t (Join srcPath entry) h.Name)
                entries tw1
        else
          match Open w srcPath with
          | .error err => (.failed err, tw)
          | .ok file =>
            if isArchive w archive srcPath then
              match WriteHeader c tw { h with Size := (c.tarOpen tw).length } with
              | (some err, tw1) => (.failed err, tw1)
              | (none, tw1) => (.failed .tarErrWriteTooLong, tw1.write (c.tarOpen tw))
            else
              match WriteHeader c tw h with
              | (some err, tw1) => (.failed err, tw1)
              | (none, tw1) =>
                match Copy tw1 file with
                | (some err, tw2) => (.failed err, tw2)
                | (none, tw2) => (.done, tw2)

/-- The loop over the source paths in `createTarFile`. -/
def forSources (c : Codec) (w : World) (archive : Option (List String)) (fuel : Nat) :
    List String → TarWriter → Status × TarWriter
  | [], tw => (.done, tw)
  | src :: rest, tw =>
    match writeToTar c w archive fuel tw src "" with
    | (.done, tw1) => forSources c w archive fuel rest tw1
    | (st, tw1) => (st, tw1)

/-- How `createTarFile` ended, what its `tar.Writer` had been given, and
the world it leaves.  `panicked` holds the error of `os.Create` when that
failed; nothing was written then and `status` carries no information. -/
structure Created where
  panicked : Option GoError
  status : Status
  written : TarWriter
  world : World

/-- Go `createTarFile`: the archive file is created first (a failure
panics), the sources are written in order into it, and the deferred `Close`
leaves the encoded entries in the archive file. -/
def createTarFile (c : Codec) (fuel : Nat) (w : World) (tarPath : String)
    (srcPath : List String) : Created :=
  match OpenFile w tarPath 0o666 with
  | .error err => ⟨some err, .unfinished, [], w⟩
  | .ok (dst, w1) =>
    let r := forSources c w1 (some dst) fuel srcPath []
    ⟨none, r.1, r.2, { w1 with fs := w1.fs.append dst (c.tar r.2) }⟩

/-- Go `listTarFiles`: print the name and a newline. -/
def listTarFiles (_tarPath : String) (_r : Reader) (h : Header) (w : World) :
    Option GoError × World :=
  (none, { w with stdout := w.stdout ++ h.Name ++ "\n" })

/-- Go `setCompressorType`: a gzip reader for `"gzip"`, the file itself for
every other name. -/
def setCompressorType (c : Codec) (file : Reader) (compressorType : String) :
    Except GoError Reader :=
  if compressorType = "gzip" then c.gunzip file
  else .ok file

/-- What a run of `iterateTarEntries` leaves: the returned error, the world,
and the log of handler calls (header and returned error), in order. -/
structure Run where
  err : Option GoError
  world : World
  calls : List (Header × Option GoError)

/-- The `for` loop of `iterateTarEntries` over what `tarReader.Next` returns:
`io.EOF` and `io.ErrUnexpectedEOF` break the loop, another error of `Next`
or an error of the handler is returned wrapped. -/
def iterateLoop (tarPath : String) (op : tarOp) (final : GoError) :
    List (Header × List Byte) → World → Run
  | [], w =>
    if final = .EOF ∨ final = .ErrUnexpectedEOF then ⟨none, w, []⟩
    else ⟨some (.errorf "failed reading tar with: %w" final), w, []⟩
  | (header, payload) :: rest, w =>
    match op tarPath (payloadReader header payload) header w with
    | (some err, w1) =>
      ⟨some (.errorf "failed running operation with: %w" err), w1, [(header, some err)]⟩
    | (none, w1) =>
      let r := iterateLoop tarPath op final rest w1
      ⟨r.err, r.world, (header, none) :: r.calls⟩

/-- Go `iterateTarEntries`. -/
def iterateTarEntries (c : Codec) (tarPath compressorType : String) (op : tarOp)
    (w : World) : Run :=
  match Open w tarPath with
  | .error err => ⟨some (.errorf "failed opening tarPath: %w" err), w, []⟩
  | .ok file =>
    match setCompressorType c file compressorType with
    | .error err =>
      ⟨some (.errorf "failed opening compressor reader of type %s with: %w" err), w, []⟩
    | .ok reader =>
      let tarReader := c.untar reader
      iterateLoop tarPath op tarReader.final tarReader.entries w

/-! ## Notions the statements use -/

/-- Names written one per line, each followed by a newline. -/
def nameLines : List String → String
  | [] => ""
  | n :: ns => n ++ "\n" ++ nameLines ns

/-- The headers of a list of entries. -/
def headersOf (es : List (Header × List Byte)) : List Header :=
  es.map (fun e => e.1)

/-- The headers the handler was called on, from the log of a run. -/
def Run.handled (r : Run) : List Header :=
  r.calls.map (fun c => c.1)

/-- A file name as a directory can hold it. -/
def validName (e : String) : Prop :=
  e ≠ "" ∧ e ≠ "." ∧ e ≠ ".." ∧ '/' ∉ e.data

/-- A path element: not empty and without a slash. -/
def plain (e : String) : Prop :=
  e ≠ "" ∧ '/' ∉ e.data

/-- The elements of a name after cleaning. -/
def pathElems (name : String) : List String :=
  cleanElems (isAbs name) (elements name)

/-- A name is nested under a directory name when its cleaned elements
properly extend those of the directory name. -/
def nestedUnder (dir name : String) : Prop :=
  pathElems dir <+: pathElems name ∧ pathElems dir ≠ pathElems name

/-- A file system is well formed when every element of every path in it is a
valid file name. -/
def FS.WellFormed (fs : FS) : Prop :=
  ∀ p ∈ fs, ∀ e ∈ p.1, validName e

/-- The headers one call of `writeToTar` adds to a writer that holds `tw`.
A depth bound that is too small cuts the sequence short; what remains is a
prefix of the full sequence. -/
def emittedAfter (c : Codec) (w : World) (archive : Option (List String)) (fuel : Nat)
    (tw : TarWriter) (srcPath baseDir : String) : List Header :=
  (headersOf (writeToTar c w archive fuel tw srcPath baseDir).2).drop tw.length

/-- The headers `writeToTar` emits for a source path and prefix, starting
from an empty writer. -/
def emitted (c : Codec) (w : World) (archive : Option (List String)) (fuel : Nat)
    (srcPath baseDir : String) : List Header :=
  emittedAfter c w archive fuel [] srcPath baseDir

/-- The sequences the loop of `createTarFile` writes: for every source path,
in argument order, the headers its call of `writeToTar` adds, up to and
including the first call that does not return nil. -/
def sourcePieces (c : Codec) (w : World) (archive : Option (List String)) (fuel : Nat) :
    List String → TarWriter → List (List Header)
  | [], _ => []
  | src :: rest, tw =>
    emittedAfter c w archive fuel tw src "" ::
      (match (writeToTar c w archive fuel tw src "").1 with
       | .done => sourcePieces c w archive fuel rest (writeToTar c w archive fuel tw src "").2
       | _ => [])

/-- The world after the handler has run without error on each of the entries
in order; none when one of these calls fails. -/
def handledWorld (tarPath : String) (op : tarOp) :
    List (Header × List Byte) → World → Option World
  | [], w => some w
  | (h, p) :: rest, w =>
    match op tarPath (payloadReader h p) h w with
    | (none, w1) => handledWorld tarPath op rest w1
    | (some _, _) => none

/-- No header of the list is nested under a header that comes after it. -/
def NoEarlierNested (out : List Header) : Prop :=
  out.Pairwise (fun a b => ¬ nestedUnder b.Name a.Name)

/-- The name and type `writeToTar` gives the header of `srcPath`, from what
`os.Stat` returned. -/
def headerFor (fi : FileInfo) (srcPath baseDir : String) (h : Header) : Prop :=
  h.Name = (if baseDir ≠ "" then Join baseDir (Base srcPath)
            else if fi.IsDir then fi.Name ++ "/" else fi.Name) ∧
    h.Typeflag = (if fi.IsDir then TypeDir else TypeReg)

/-- The shape of what one call of `writeToTar` emits: the header of the
source path first; every later header properly extends its elements and is
named after a directory header of the list. -/
def Shape (w : World) (srcPath baseDir : String) (E : List Header) : Prop :=
  NoEarlierNested E ∧
    ∀ h0 rest, E = h0 :: rest →
      (∃ fi, Stat w srcPath = .ok fi ∧ headerFor fi srcPath baseDir h0) ∧
        ∀ h ∈ rest,
          (∃ t, t ≠ [] ∧ pathElems h.Name = pathElems h0.Name ++ t) ∧
            ∃ d ∈ E, d.Typeflag = TypeDir ∧ ∃ e, validName e ∧ h.Name = Join d.Name e

/-- The shape of what the loop over the entries of directory header `D`
emits. -/
def Forest (D : Header) (entries : List String) (E : List Header) : Prop :=
  NoEarlierNested E ∧
    ∀ h ∈ E,
      (∃ e ∈ entries, ∃ t, pathElems h.Name = pathElems D.Name ++ e :: t) ∧
        ∃ d, (d = D ∨ d ∈ E) ∧ d.Typeflag = TypeDir ∧
          ∃ e, validName e ∧ h.Name = Join d.Name e

/-- In a list of headers, every directory header comes strictly before every
header whose name is nested under its name. -/
def DirsFirst (out : List Header) : Prop :=
  ∀ (i j : Nat) (hi : i < out.length) (hj : j < out.length),
    (out.get ⟨i, hi⟩).Typeflag = TypeDir →
    nestedUnder (out.get ⟨i, hi⟩).Name (out.get ⟨j, hj⟩).Name → i < j

/-! ## Concrete inputs -/

/-- A codec that decodes every stream as `d` and accepts every header. -/
def fixedCodec (d : Decoded) : Codec :=
  ⟨fun _ => d, fun r => .ok r, fun _ => [], fun _ => [], fun _ => none⟩

/-- A world whose working directory `/work` holds the archive of the test,
`testdata/files.tar`. -/
def testWorld : World :=
  ⟨[(["work"], Node.dir 0o755), (["work", "testdata"], Node.dir 0o755),
    (["work", "testdata", "files.tar"], Node.file 0o644 [102, 105, 108, 101])],
    ["work"], ""⟩

/-- The entries of `testdata/files.tar`. -/
def filesTar : List (Header × List Byte) :=
  [(⟨"file1.txt", TypeReg, 2, 0o644⟩, [49, 10]),
   (⟨"file2.txt", TypeReg, 2, 0o644⟩, [50, 10]),
   (⟨"file3.txt", TypeReg, 2, 0o644⟩, [51, 10])]

/-- A handler that prints the name of every entry it is called on and fails
on the entry named `file2.txt`. -/
def failOnSecond (_tarPath : String) (_r : Reader) (h : Header) (w : World) :
    Option GoError × World :=
  (if h.Name = "file2.txt" then some .tarErrHeader else none,
    { w with stdout := w.stdout ++ h.Name ++ "\n" })

/-- A world with the directory `/work/dest` as working directory, next to
`/work/tree` (a file and a subdirectory with a file) and `/etc/passwd`. -/
def destWorld : World :=
  ⟨[(["etc"], Node.dir 0o755), (["etc", "passwd"], Node.file 0o644 [114, 111, 111, 116]),
    (["work"], Node.dir 0o755), (["work", "dest"], Node.dir 0o755),
    (["work", "dest", "out"], Node.dir 0o755),
    (["work", "tree"], Node.dir 0o755),
    (["work", "tree", "a.txt"], Node.file 0o644 [97, 10]),
    (["work", "tree", "sub"], Node.dir 0o700),
    (["work", "tree", "sub", "b.txt"], Node.file 0o600 [98, 10])],
    ["work", "dest"], ""⟩

/-- The entries `createTarFile` writes for `/work/tree` in `destWorld`. -/
def treeEntries : List (Header × List Byte) :=
  [(⟨"tree/", TypeDir, 0, 0o755⟩, []),
   (⟨"tree/a.txt", TypeReg, 2, 0o644⟩, [97, 10]),
   (⟨"tree/sub", TypeDir, 0, 0o700⟩, []),
   (⟨"tree/sub/b.txt", TypeReg, 2, 0o600⟩, [98, 10])]

/-! ## The iteration loop -/

theorem iterateLoop_list (tarPath : String) (entries : List (Header × List Byte)) :
    ∀ w : World,
      (iterateLoop tarPath listTarFiles .EOF entries w).err = none ∧
      (iterateLoop tarPath listTarFiles .EOF entries w).calls =
        entries.map (fun e => (e.1, none)) ∧
      (iterateLoop tarPath listTarFiles .EOF entries w).world =
        { w with stdout := w.stdout ++ nameLines (entries.map (fun e => e.1.Name)) } := by
  induction entries with
  | nil => intro w; simp [iterateLoop, nameLines]
  | cons e rest ih =>
    intro w
    obtain ⟨h, p⟩ := e
    have step := ih { w with stdout := w.stdout ++ h.Name ++ "\n" }
    simp only [String.append_assoc] at step
    simp [iterateLoop, listTarFiles, step, nameLines, String.append_assoc]

/-- When no logged handler call failed, every decoded header was handled and
the result depends on the final error of `Next` alone. -/
theorem iterateLoop_no_handler_error (tarPath : String) (op : tarOp) (final : GoError)
    (entries : List (Header × List Byte)) :
    ∀ w : World,
      (∀ call ∈ (iterateLoop tarPath op final entries w).calls, call.2 = none) →
      (iterateLoop tarPath op final entries w).calls.length = entries.length ∧
        (iterateLoop tarPath op final entries w).err =
          (if final = .EOF ∨ final = .ErrUnexpectedEOF then none
           else some (.errorf "failed reading tar with: %w" final)) := by
  induction entries with
  | nil => intro w _; unfold iterateLoop; split <;> simp [*]
  | cons x rest ih =>
    intro w
    obtain ⟨h0, p⟩ := x
    unfold iterateLoop
    split
    · intro hall
      simp at hall
    · rename_i w1 _
      intro hall
      have step := ih w1 (fun call hc => hall call (by simp [hc]))
      simp [step.1, step.2]

/-! ## Extraction -/

theorem MkdirAll_empty (w : World) (perm : Nat) :
    MkdirAll w "" perm = (some (.pathError "mkdir" "" .ENOENT), w) := by
  simp [MkdirAll, MkdirAllAux, Stat, resolve, parentOf, Mkdir, resolveNew]

/-- Every Directory header makes `extractTarFile` fail: `os.MkdirAll("")`
cannot succeed. -/
theorem extractTarFile_dir (dst : String) (r : Reader) (h : Header) (w : World)
    (hdir : h.Typeflag = TypeDir) :
    extractTarFile dst r h w =
      (some (.errorf "could not create dir in %s with %w" (.pathError "mkdir" "" .ENOENT)), w) := by
  simp [extractTarFile, hdir, MkdirAll_empty]

theorem FS.find_set_self (fs : FS) (p : List String) (n : Node) :
    (fs.set p n).find p = some n := by
  simp [FS.find, FS.set]

theorem find?_filter_ne (fs : FS) (p q : List String) (hne : q ≠ p) :
    List.find? (fun e => decide (e.1 = q)) (List.filter (fun e => decide (e.1 ≠ p)) fs)
      = List.find? (fun e => decide (e.1 = q)) fs := by
  induction fs with
  | nil => rfl
  | cons e rest ih =>
    by_cases h1 : e.1 = p
    · have h2 : ¬ e.1 = q := fun h => hne (h.symm.trans h1)
      rw [List.filter_cons_of_neg (by simp [h1]), List.find?_cons_of_neg _ (by simp [h2])]
      exact ih
    · rw [List.filter_cons_of_pos (by simp [h1])]
      by_cases h2 : e.1 = q
      · rw [List.find?_cons_of_pos _ (by simp [h2]), List.find?_cons_of_pos _ (by simp [h2])]
      · rw [List.find?_cons_of_neg _ (by simp [h2]), List.find?_cons_of_neg _ (by simp [h2])]
        exact ih

theorem FS.find_set_ne (fs : FS) (p q : List String) (n : Node) (hne : q ≠ p) :
    (fs.set p n).find q = fs.find q := by
  have hne2 : ¬ p = q := fun h => hne h.symm
  unfold FS.find FS.set
  rw [List.find?_cons_of_neg _ (by simp [hne2]), find?_filter_ne fs p q hne]

theorem walk_dot (fs : FS) (cur : List String) :
    walk fs cur ["."] =
      match fs.find cur with
      | none => .error .ENOENT
      | some (Node.file _ _) => .error .ENOTDIR
      | some (Node.dir _) => .ok cur := by
  simp only [walk]
  cases fs.find cur with
  | none => rfl
  | some n => cases n <;> simp [walk]

theorem MkdirAll_dot (w : World) (perm : Nat) :
    MkdirAll w "." perm = (none, w) ∨ ∃ e, MkdirAll w "." perm = (some e, w) := by
  have hraw : rawElements "." = ["."] := by decide
  have hdrop : dropTrailingEmpty ["."] = ["."] := by decide
  have hpar : parentOf "." = none := by decide
  have habs : isAbs "." = false := by decide
  have hne : ("." : String) ≠ "" := by decide
  have hlen : ("." : String).length + 1 = 1 + 1 := by decide
  unfold MkdirAll
  rw [hlen]
  unfold MkdirAllAux
  simp only [Stat, resolve, hne, if_false, habs, hraw, walk_dot, Mkdir, resolveNew, hdrop, hpar]
  cases hf : w.fs.find w.cwd with
  | none => simp [hf]
  | some n => cases n <;> simp [hf, FileInfo.IsDir]


theorem OpenFile_ok (w w2 : World) (path : String) (perm : Nat) (f : List String)
    (h : OpenFile w path perm = .ok (f, w2)) :
    resolve w path = .ok f ∧
      ∃ m, w2 = { w with fs := w.fs.set f (Node.file m []) } := by
  unfold OpenFile at h
  cases hr : resolve w path with
  | error e => simp [hr] at h
  | ok p =>
    simp only [hr] at h
    cases hf : w.fs.find p with
    | none =>
      simp only [hf] at h
      injection h with h
      injection h with h1 h2
      subst h1 h2
      exact ⟨rfl, _, rfl⟩
    | some n =>
      cases n with
      | dir m => simp [hf] at h
      | file m d =>
        simp only [hf] at h
        injection h with h
        injection h with h1 h2
        subst h1 h2
        exact ⟨rfl, _, rfl⟩

theorem CopyN_err (w : World) (f : List String) (r : Reader) (n : Int) :
    (CopyN w f r n).2.1 = if (r.data.length : Int) < n then some r.err else none := by
  unfold CopyN
  simp only [List.length_take]
  split_ifs <;> first | rfl | omega

theorem CopyN_world (w : World) (f : List String) (r : Reader) (n : Int) :
    (CopyN w f r n).2.2 = { w with fs := w.fs.append f (r.data.take n.toNat) } := by
  unfold CopyN
  simp only
  split_ifs <;> rfl

theorem extractTarFile_reg (dst : String) (r : Reader) (h : Header) (w : World)
    (hreg : h.Typeflag = TypeReg) :
    extractTarFile dst r h w =
      match MkdirAll w "." 0o755 with
      | (some err, w1) => (some (.errorf "couldn't open dir in %s with %w" err), w1)
      | (none, w1) =>
        match OpenFile w1 (Join "" h.Name) (FileMode h.Mode) with
        | .error err => (some (.errorf "couldn't open file in %s with %w" err), w1)
        | .ok (f, w2) =>
          match CopyN w2 f r h.Size with
          | (_, some err, w3) =>
            (some (.errorf "failed writing to file: %v, %d bytes, only wrote %d with %w" err), w3)
          | (_, none, w3) => (none, w3) := by
  have hd : Dir "" = "." := by decide
  have hne : ¬ TypeReg = TypeDir := by decide
  simp only [extractTarFile, hreg, hne, if_false, if_true, hd]

theorem FS.find_append_self (fs : FS) (p : List String) (m : Nat) (d bytes : List Byte)
    (h : fs.find p = some (Node.file m d)) :
    (fs.append p bytes).find p = some (Node.file m (d ++ bytes)) := by
  simp [FS.append, h, FS.find_set_self]

theorem FS.find_append_ne (fs : FS) (p q : List String) (bytes : List Byte) (hne : q ≠ p) :
    (fs.append p bytes).find q = fs.find q := by
  unfold FS.append
  split
  · exact FS.find_set_ne _ _ _ _ hne
  · rfl

/-- What extracting a regular entry does once the file is open. -/
theorem extractTarFile_reg_opened (dst : String) (r : Reader) (h : Header) (w w2 : World)
    (f : List String) (hreg : h.Typeflag = TypeReg)
    (hmk : (MkdirAll w (Dir "") 0o755).1 = none)
    (hopen : OpenFile w (Join "" h.Name) (FileMode h.Mode) = .ok (f, w2)) :
    (extractTarFile dst r h w).1 =
        (if (r.data.length : Int) < h.Size then
          some (.errorf "failed writing to file: %v, %d bytes, only wrote %d with %w" r.err)
         else none) ∧
      (extractTarFile dst r h w).2 =
        { w2 with fs := w2.fs.append f (r.data.take h.Size.toNat) } := by
  have hd : Dir "" = "." := by decide
  rw [hd] at hmk
  have hmk2 : MkdirAll w "." 0o755 = (none, w) := by
    rcases MkdirAll_dot w 0o755 with h1 | ⟨e, h1⟩
    · exact h1
    · rw [h1] at hmk; simp at hmk
  rw [extractTarFile_reg dst r h w hreg, hmk2]
  simp only [hopen]
  have herr := CopyN_err w2 f r h.Size
  have hw := CopyN_world w2 f r h.Size
  rcases hc : CopyN w2 f r h.Size with ⟨n, e, w3⟩
  rw [hc] at herr hw
  simp only at herr hw
  subst hw
  by_cases hlt : (r.data.length : Int) < h.Size
  · simp only [hlt, if_true] at herr ⊢
    subst herr
    exact ⟨rfl, rfl⟩
  · simp only [hlt, if_false] at herr ⊢
    subst herr
    exact ⟨rfl, rfl⟩

/-! ## Paths -/

theorem splitSlash_ne_nil (cs : List Char) : splitSlash cs ≠ [] := by
  induction cs with
  | nil => simp [splitSlash]
  | cons c cs ih =>
    unfold splitSlash
    split
    · simp
    · split
      · simp
      · simp

theorem splitSlash_no_slash (x : List Char) (h : '/' ∉ x) : splitSlash x = [x] := by
  induction x with
  | nil => rfl
  | cons c cs ih =>
    have hc : c ≠ '/' := fun e => h (by simp [e])
    have hcs : '/' ∉ cs := fun e => h (by simp [e])
    simp [splitSlash, hc, ih hcs]

theorem splitSlash_append (a b : List Char) :
    splitSlash (a ++ '/' :: b) = splitSlash a ++ splitSlash b := by
  induction a with
  | nil => simp [splitSlash]
  | cons c cs ih =>
    by_cases hc : c = '/'
    · simp [splitSlash, hc, ih]
    · rcases hs : splitSlash cs with _ | ⟨x, xs⟩
      · exact absurd hs (splitSlash_ne_nil cs)
      · have h1 : splitSlash (c :: (cs ++ '/' :: b)) = (c :: x) :: (xs ++ splitSlash b) := by
          simp only [splitSlash, hc, if_false, ih, hs, List.cons_append]
        have h2 : splitSlash (c :: cs) = (c :: x) :: xs := by
          simp only [splitSlash, hc, if_false, hs]
        rw [List.cons_append, h1, h2, List.cons_append]

theorem elements_data (s : String) :
    elements s = ((splitSlash s.data).filter (fun x => x ≠ [])).map String.mk := by
  unfold elements rawElements
  rw [List.filter_map]
  congr 1
  apply List.filter_congr
  intro x _
  simp [Function.comp, String.ext_iff]

theorem elements_append_slash (a e : String) (he : plain e) :
    elements (a ++ "/" ++ e) = elements a ++ [e] := by
  have hd : (a ++ "/" ++ e).data = a.data ++ '/' :: e.data := by
    simp [String.data_append]
  have hne : e.data ≠ [] := fun h => he.1 (String.ext h)
  rw [elements_data, elements_data, hd, splitSlash_append, splitSlash_no_slash _ he.2]
  simp [hne]

theorem elements_plain (e : String) (he : plain e) : elements e = [e] := by
  have hne : e.data ≠ [] := fun h => he.1 (String.ext h)
  rw [elements_data, splitSlash_no_slash _ he.2]
  simp [hne]

theorem splitSlash_joinSlash (ys : List String) (hne : ys ≠ []) (hp : ∀ y ∈ ys, plain y) :
    splitSlash (joinSlash ys) = ys.map (fun y => y.data) := by
  induction ys with
  | nil => exact absurd rfl hne
  | cons y rest ih =>
    cases rest with
    | nil => simp [joinSlash, splitSlash_no_slash _ (hp y (by simp)).2]
    | cons z rest =>
      have h1 := ih (by simp) (fun u hu => hp u (by simp [hu]))
      simp only [joinSlash, splitSlash_append, splitSlash_no_slash _ (hp y (by simp)).2, h1]
      simp

theorem elements_render (rt : Bool) (ys : List String) (hne : ys ≠ [])
    (hp : ∀ y ∈ ys, plain y) : elements (render rt ys) = ys := by
  have hmk : List.map String.mk (List.map (fun y => y.data) ys) = ys := by
    rw [List.map_map]
    conv_rhs => rw [← List.map_id ys]
    apply List.map_congr_left
    intro y _
    rfl
  have hfil : List.filter (fun x => decide (x ≠ [])) (List.map (fun y => y.data) ys)
      = List.map (fun y => y.data) ys := by
    rw [List.filter_eq_self]
    intro x hx
    rw [List.mem_map] at hx
    obtain ⟨y, hy, rfl⟩ := hx
    have : y.data ≠ [] := fun h => (hp y hy).1 (String.ext h)
    simp [this]
  cases rt with
  | true =>
    simp only [render, if_true, elements_data]
    simp only [splitSlash, if_true, splitSlash_joinSlash ys hne hp]
    rw [List.filter_cons_of_neg (by simp), hfil, hmk]
  | false =>
    simp only [render, hne, if_false, elements_data, Bool.false_eq_true]
    rw [splitSlash_joinSlash ys hne hp, hfil, hmk]


theorem cleanStep_name (rt : Bool) (acc : List String) (e : String)
    (h1 : e ≠ ".") (h2 : e ≠ "..") : cleanStep rt acc e = acc ++ [e] := by
  simp [cleanStep, h1, h2]

theorem cleanElems_snoc (rt : Bool) (xs : List String) (c : String) :
    cleanElems rt (xs ++ [c]) = cleanStep rt (cleanElems rt xs) c := by
  simp [cleanElems, List.foldl_append]

theorem cleanStep_dot (rt : Bool) (acc : List String) : cleanStep rt acc "." = acc := by
  simp [cleanStep]

theorem cleanStep_up_nil (rt : Bool) :
    cleanStep rt [] ".." = if rt then [] else [".."] := by
  simp [cleanStep]

theorem cleanStep_up_up (rt : Bool) (l : List String) :
    cleanStep rt (l ++ [".."]) ".." = l ++ [".."] ++ [".."] := by
  simp [cleanStep]

theorem cleanStep_up_name (rt : Bool) (l : List String) (x : String) (hx : x ≠ "..") :
    cleanStep rt (l ++ [x]) ".." = l := by
  simp [cleanStep, hx]

/-- The cases of one cleaning step. -/
theorem cleanStep_cases (rt : Bool) (acc : List String) (c : String) :
    cleanStep rt acc c = acc ∨ cleanStep rt acc c = acc ++ [c] ∨
      cleanStep rt acc c = acc.dropLast ∨ (cleanStep rt acc c = [] ∧ acc = []) := by
  by_cases h1 : c = "."
  · left; rw [h1, cleanStep_dot]
  by_cases h2 : c = ".."
  · subst h2
    rcases List.eq_nil_or_concat acc with hl | ⟨l, x, hl⟩
    · subst hl
      cases rt
      · right; left; rfl
      · right; right; right; exact ⟨rfl, rfl⟩
    · rw [List.concat_eq_append] at hl
      subst hl
      by_cases hx : x = ".."
      · subst hx
        right; left; exact cleanStep_up_up rt l
      · right; right; left
        rw [cleanStep_up_name rt l x hx]
        simp
  · right; left; exact cleanStep_name rt acc c h1 h2

theorem cleanStep_no_dot (rt : Bool) (acc : List String) (c : String)
    (h : "." ∉ acc) : "." ∉ cleanStep rt acc c := by
  by_cases h1 : c = "."
  · rw [h1, cleanStep_dot]; exact h
  rcases cleanStep_cases rt acc c with hc | hc | hc | ⟨hc, _⟩ <;> rw [hc]
  · exact h
  · simp only [List.mem_append, List.mem_singleton, not_or]
    exact ⟨h, fun e => h1 e.symm⟩
  · exact fun hm => h (List.mem_of_mem_dropLast hm)
  · simp

theorem cleanElems_no_dot (rt : Bool) (xs : List String) : "." ∉ cleanElems rt xs := by
  induction xs using List.reverseRecOn with
  | nil => simp [cleanElems]
  | append_singleton xs c ih =>
    rw [cleanElems_snoc]
    exact cleanStep_no_dot rt _ c ih

theorem cleanStep_plain (rt : Bool) (acc : List String) (c : String)
    (h : ∀ y ∈ acc, plain y) (hc : plain c) : ∀ y ∈ cleanStep rt acc c, plain y := by
  rcases cleanStep_cases rt acc c with hs | hs | hs | ⟨hs, _⟩ <;> rw [hs]
  · exact h
  · intro y hy
    simp only [List.mem_append, List.mem_singleton] at hy
    rcases hy with hy | hy
    · exact h y hy
    · rw [hy]; exact hc
  · exact fun y hy => h y (List.mem_of_mem_dropLast hy)
  · simp

theorem cleanElems_plain (rt : Bool) (xs : List String) (h : ∀ y ∈ xs, plain y) :
    ∀ y ∈ cleanElems rt xs, plain y := by
  induction xs using List.reverseRecOn with
  | nil => simp [cleanElems]
  | append_singleton xs c ih =>
    rw [cleanElems_snoc]
    exact cleanStep_plain rt _ c (ih (fun y hy => h y (by simp [hy]))) (h c (by simp))

theorem cleanStep_fixed (rt : Bool) (l : List String) (c : String)
    (hdot : "." ∉ l) (hfix : cleanElems rt l = l) :
    cleanElems rt (cleanStep rt l c) = cleanStep rt l c := by
  by_cases h1 : c = "."
  · rw [h1, cleanStep_dot, hfix]
  by_cases h2 : c = ".."
  · subst h2
    rcases List.eq_nil_or_concat l with hl | ⟨l', x, hl⟩
    · subst hl
      cases rt <;> decide
    · rw [List.concat_eq_append] at hl
      subst hl
      by_cases hx : x = ".."
      · subst hx
        rw [cleanStep_up_up, cleanElems_snoc, hfix, cleanStep_up_up]
      · rw [cleanStep_up_name rt l' x hx]
        have hxd : x ≠ "." := fun e => hdot (by simp [e])
        rw [cleanElems_snoc, cleanStep_name rt _ x hxd hx] at hfix
        exact List.append_cancel_right hfix
  · rw [cleanStep_name rt l c h1 h2, cleanElems_snoc, hfix, cleanStep_name rt l c h1 h2]

theorem cleanElems_idem (rt : Bool) (xs : List String) :
    cleanElems rt (cleanElems rt xs) = cleanElems rt xs := by
  induction xs using List.reverseRecOn with
  | nil => simp [cleanElems]
  | append_singleton xs c ih =>
    rw [cleanElems_snoc]
    exact cleanStep_fixed rt _ c (cleanElems_no_dot rt xs) ih


theorem splitSlash_mem_no_slash (cs : List Char) : ∀ x ∈ splitSlash cs, '/' ∉ x := by
  induction cs with
  | nil =>
    intro x hx
    simp only [splitSlash, List.mem_singleton] at hx
    subst hx
    simp
  | cons c cs ih =>
    intro x hx
    by_cases hc : c = '/'
    · simp only [splitSlash, hc, if_true] at hx
      rcases List.mem_cons.mp hx with h | h
      · subst h; simp
      · exact ih x h
    · rcases hs : splitSlash cs with _ | ⟨z, zs⟩
      · exact absurd hs (splitSlash_ne_nil cs)
      · simp only [splitSlash, hc, if_false, hs] at hx
        rw [hs] at ih
        rcases List.mem_cons.mp hx with h | h
        · subst h
          have hz := ih z (by simp)
          simp only [List.mem_cons, not_or]
          exact ⟨fun e => hc e.symm, hz⟩
        · exact ih x (by simp [h])

theorem elements_all_plain (s : String) : ∀ y ∈ elements s, plain y := by
  intro y hy
  rw [elements_data, List.mem_map] at hy
  obtain ⟨x, hx, rfl⟩ := hy
  rw [List.mem_filter] at hx
  obtain ⟨hx1, hx2⟩ := hx
  have hne : x ≠ [] := by simpa using hx2
  exact ⟨fun e => hne (by simpa using congrArg String.data e),
    splitSlash_mem_no_slash s.data x hx1⟩

theorem validName_plain (e : String) (h : validName e) : plain e := ⟨h.1, h.2.2.2⟩

theorem isAbs_append_slash (a e : String) (ha : a ≠ "") :
    isAbs (a ++ "/" ++ e) = isAbs a := by
  have hd : (a ++ "/" ++ e).data = a.data ++ '/' :: e.data := by
    simp [String.data_append]
  have hne : a.data ≠ [] := fun h => ha (String.ext h)
  unfold isAbs
  rw [hd]
  cases hda : a.data with
  | nil => exact absurd hda hne
  | cons c cs => simp

theorem isAbs_render (rt : Bool) (ys : List String) (hne : ys ≠ [])
    (hp : ∀ y ∈ ys, plain y) : isAbs (render rt ys) = rt := by
  cases rt with
  | true => simp [render, isAbs]
  | false =>
    simp only [render, hne, if_false, Bool.false_eq_true, isAbs]
    cases ys with
    | nil => exact absurd rfl hne
    | cons y rest =>
      have hy := hp y (by simp)
      have hyne : y.data ≠ [] := fun h => hy.1 (String.ext h)
      cases hd : y.data with
      | nil => exact absurd hd hyne
      | cons c cs =>
        have hc : c ≠ '/' := fun e => hy.2 (by rw [hd, e]; simp)
        cases rest with
        | nil => simp [joinSlash, hd, hc]
        | cons z zs => simp [joinSlash, hd, hc]

theorem pathElems_render (rt : Bool) (ys : List String) (hne : ys ≠ [])
    (hp : ∀ y ∈ ys, plain y) : pathElems (render rt ys) = cleanElems rt ys := by
  unfold pathElems
  rw [isAbs_render rt ys hne hp, elements_render rt ys hne hp]

/-- Joining a valid file name to a non-empty path appends one element. -/
theorem pathElems_Join (r e : String) (hr : r ≠ "") (he : validName e) :
    pathElems (Join r e) = pathElems r ++ [e] := by
  have hpl := validName_plain e he
  have hclean : cleanElems (isAbs r) (elements r ++ [e]) = pathElems r ++ [e] := by
    rw [cleanElems_snoc, cleanStep_name _ _ e he.2.1 he.2.2.1]
    rfl
  have hplain : ∀ y ∈ pathElems r ++ [e], plain y := by
    intro y hy
    rcases List.mem_append.mp hy with h | h
    · exact cleanElems_plain _ _ (elements_all_plain r) y h
    · rw [List.mem_singleton.mp h]; exact hpl
  unfold Join
  rw [if_pos hr]
  unfold Clean
  rw [isAbs_append_slash r e hr, elements_append_slash r e hpl, hclean,
    pathElems_render _ _ (by simp) hplain, cleanElems_snoc,
    cleanStep_name _ _ e he.2.1 he.2.2.1]
  unfold pathElems
  rw [cleanElems_idem]

theorem elements_empty : elements "" = [] := by decide

theorem Base_of_last (s : String) (ys : List String) (e : String)
    (h : elements s = ys ++ [e]) : Base s = e := by
  have hne : s ≠ "" := by
    intro hs
    rw [hs, elements_empty] at h
    simp at h
  simp [Base, hne, h]

/-- The base name of a path joined with a valid file name is that name. -/
theorem Base_Join (p e : String) (he : validName e) : Base (Join p e) = e := by
  have hpl := validName_plain e he
  by_cases hp : p = ""
  · have hj : Join p e = render (isAbs e) [e] := by
      simp only [Join, hp, he.1, ne_eq, not_true_eq_false, if_false, not_false_eq_true, if_true,
        Clean, elements_plain e hpl]
      congr 1
      simp [cleanElems, cleanStep_name _ _ e he.2.1 he.2.2.1]
    rw [hj]
    exact Base_of_last _ [] e
      (by rw [elements_render _ [e] (by simp) (by simpa using hpl)]; rfl)
  · have hplain : ∀ y ∈ pathElems p ++ [e], plain y := by
      intro y hy
      rcases List.mem_append.mp hy with h | h
      · exact cleanElems_plain _ _ (elements_all_plain p) y h
      · rw [List.mem_singleton.mp h]; exact hpl
    have hj : Join p e = render (isAbs p) (pathElems p ++ [e]) := by
      unfold Join
      rw [if_pos hp]
      unfold Clean
      rw [isAbs_append_slash p e hp, elements_append_slash p e hpl, cleanElems_snoc,
        cleanStep_name _ _ e he.2.1 he.2.2.1]
      rfl
    rw [hj]
    exact Base_of_last _ (pathElems p) e (elements_render _ _ (by simp) hplain)

/-! ## The archive writer -/

theorem childNames_valid (fs : FS) (p : List String) (hwf : fs.WellFormed) :
    ∀ e ∈ childNames fs p, validName e := by
  intro e he
  unfold childNames at he
  rw [List.mem_filterMap] at he
  obtain ⟨x, hx, hsome⟩ := he
  split_ifs at hsome with hc
  exact hwf x hx e (List.mem_of_getLast?_eq_some hsome)

theorem ReadDir_valid (w : World) (path : String) (entries : List String)
    (hwf : w.fs.WellFormed) (h : ReadDir w path = .ok entries) :
    (∀ e ∈ entries, validName e) ∧ entries.Nodup := by
  unfold ReadDir at h
  cases hr : resolve w path with
  | error e => simp [hr] at h
  | ok p =>
    simp only [hr] at h
    cases hf : w.fs.find p with
    | none => simp [hf] at h
    | some n =>
      cases n with
      | file m d => simp [hf] at h
      | dir m =>
        simp only [hf] at h
        injection h with h
        subst h
        have hperm := List.perm_insertionSort (fun a b : String => charsLe a.data b.data = true)
          (childNames w.fs p).dedup
        constructor
        · intro e he
          have h1 := hperm.mem_iff.mp he
          exact childNames_valid w.fs p hwf e (List.mem_dedup.mp h1)
        · exact hperm.nodup_iff.mpr (List.nodup_dedup _)

theorem headersOf_append (a b : List (Header × List Byte)) :
    headersOf (a ++ b) = headersOf a ++ headersOf b := by
  simp [headersOf]

theorem headersOf_write (tw : TarWriter) (bytes : List Byte) :
    headersOf (tw.write bytes) = headersOf tw := by
  induction tw with
  | nil => rfl
  | cons e rest ih =>
    cases rest with
    | nil => obtain ⟨h, p⟩ := e; rfl
    | cons f rest =>
      simp only [TarWriter.write, headersOf, List.map_cons] at ih ⊢
      rw [ih]

theorem not_nested_of_diff (R : List String) (e1 e2 : String) (t1 t2 : List String)
    (a b : String) (ha : pathElems a = R ++ e1 :: t1) (hb : pathElems b = R ++ e2 :: t2)
    (hne : e1 ≠ e2) : ¬ nestedUnder b a := by
  intro hn
  have hp := hn.1
  rw [ha, hb, List.prefix_append_right_inj] at hp
  obtain ⟨u, hu⟩ := hp
  simp only [List.cons_append, List.cons.injEq] at hu
  exact hne hu.1.symm

theorem not_nested_of_longer (R t : List String) (a b : String) (ha : pathElems a = R)
    (hb : pathElems b = R ++ t) (ht : t ≠ []) : ¬ nestedUnder b a := by
  intro hn
  have hlen := hn.1.length_le
  rw [ha, hb, List.length_append] at hlen
  have : t.length = 0 := by omega
  exact ht (List.length_eq_zero.mp this)

theorem Forest_nil (D : Header) (entries : List String) : Forest D entries [] := by
  constructor
  · exact List.Pairwise.nil
  · intro h hh
    simp at hh

theorem forEntries_shape (each : TarWriter → String → Status × TarWriter) (D : Header)
    (entries : List String) (hnd : entries.Nodup)
    (heach : ∀ tw e, e ∈ entries → ∃ E, headersOf (each tw e).2 = headersOf tw ++ E ∧
      NoEarlierNested E ∧
      ∀ h ∈ E, (∃ t, pathElems h.Name = pathElems D.Name ++ e :: t) ∧
        ∃ d, (d = D ∨ d ∈ E) ∧ d.Typeflag = TypeDir ∧
          ∃ e, validName e ∧ h.Name = Join d.Name e) :
    ∀ tw, ∃ E, headersOf (forEntries each entries tw).2 = headersOf tw ++ E ∧
      Forest D entries E := by
  induction entries with
  | nil =>
    intro tw
    exact ⟨[], by simp [forEntries], Forest_nil D []⟩
  | cons e es ih =>
    intro tw
    obtain ⟨E1, hE1, hN1, hF1⟩ := heach tw e (by simp)
    have hnd2 : es.Nodup := (List.nodup_cons.mp hnd).2
    have hnot : e ∉ es := (List.nodup_cons.mp hnd).1
    have widen : ∀ h ∈ E1, (∃ e' ∈ e :: es, ∃ t, pathElems h.Name = pathElems D.Name ++ e' :: t) ∧
        ∀ E2, ∃ d, (d = D ∨ d ∈ E1 ++ E2) ∧ d.Typeflag = TypeDir ∧
          ∃ e, validName e ∧ h.Name = Join d.Name e := by
      intro h hh
      obtain ⟨⟨t, ht⟩, d, hd, hdir, hname⟩ := hF1 h hh
      refine ⟨⟨e, by simp, t, ht⟩, fun E2 => ⟨d, ?_, hdir, hname⟩⟩
      rcases hd with hd | hd
      · exact Or.inl hd
      · exact Or.inr (List.mem_append_left _ hd)
    unfold forEntries
    rcases hres : each tw e with ⟨st, tw1⟩
    rw [hres] at hE1
    simp only at hE1
    cases st with
    | done =>
      simp only
      obtain ⟨E2, hE2, hN2, hF2⟩ := ih hnd2 (fun tw' e' he' => heach tw' e' (by simp [he'])) tw1
      refine ⟨E1 ++ E2, by rw [hE2, hE1, List.append_assoc], ?_, ?_⟩
      · unfold NoEarlierNested
        rw [List.pairwise_append]
        refine ⟨hN1, hN2, ?_⟩
        intro a ha b hb
        obtain ⟨⟨t1, ht1⟩, _⟩ := hF1 a ha
        obtain ⟨⟨e2, he2, t2, ht2⟩, _⟩ := hF2 b hb
        exact not_nested_of_diff _ e e2 t1 t2 _ _ ht1 ht2 (fun heq => hnot (heq ▸ he2))
      · intro h hh
        rcases List.mem_append.mp hh with h1 | h2
        · exact ⟨(widen h h1).1, (widen h h1).2 E2⟩
        · obtain ⟨⟨e2, he2, t2, ht2⟩, d, hd, hdir, hname⟩ := hF2 h h2
          refine ⟨⟨e2, by simp [he2], t2, ht2⟩, d, ?_, hdir, hname⟩
          rcases hd with hd | hd
          · exact Or.inl hd
          · exact Or.inr (List.mem_append_right _ hd)
    | failed err =>
      simp only
      refine ⟨E1, hE1, hN1, ?_⟩
      intro h hh
      have h2 := (widen h hh).2 []
      rw [List.append_nil] at h2
      exact ⟨(widen h hh).1, h2⟩
    | unfinished =>
      simp only
      refine ⟨E1, hE1, hN1, ?_⟩
      intro h hh
      have h2 := (widen h hh).2 []
      rw [List.append_nil] at h2
      exact ⟨(widen h hh).1, h2⟩


theorem render_ne_empty (rt : Bool) (ys : List String) (hp : ∀ y ∈ ys, plain y) :
    render rt ys ≠ "" := by
  by_cases hne : ys = []
  · subst hne
    cases rt <;> decide
  · intro h
    have := elements_render rt ys hne hp
    rw [h, elements_empty] at this
    exact hne this.symm

theorem Clean_ne_empty (s : String) : Clean s ≠ "" :=
  render_ne_empty _ _ (cleanElems_plain _ _ (elements_all_plain s))

theorem Join_ne_empty (a b : String) (ha : a ≠ "") : Join a b ≠ "" := by
  unfold Join
  rw [if_pos ha]
  exact Clean_ne_empty _

theorem append_slash_ne_empty (s : String) : s ++ "/" ≠ "" := by
  intro h
  have h1 := congrArg String.length h
  have h2 : ("/" : String).length = 1 := by decide
  have h3 : ("" : String).length = 0 := by decide
  rw [String.length_append, h2, h3] at h1
  omega

theorem Shape_nil (w : World) (srcPath baseDir : String) : Shape w srcPath baseDir [] :=
  ⟨List.Pairwise.nil, fun h0 rest h => by simp at h⟩

theorem Shape_single (w : World) (srcPath baseDir : String) (fi : FileInfo) (h : Header)
    (hst : Stat w srcPath = .ok fi) (hf : headerFor fi srcPath baseDir h) :
    Shape w srcPath baseDir [h] := by
  refine ⟨List.pairwise_singleton _ _, ?_⟩
  intro h0 rest heq
  simp only [List.cons.injEq] at heq
  obtain ⟨h1, h2⟩ := heq
  subst h1
  subst h2
  exact ⟨⟨fi, hst, hf⟩, fun x hx => by simp at hx⟩

/-- What a child call emits, seen from the loop of its directory. -/
theorem Shape_child (w : World) (srcPath e : String) (D : Header) (E : List Header)
    (hD : D.Name ≠ "") (hdir : D.Typeflag = TypeDir) (he : validName e)
    (hs : Shape w (Join srcPath e) D.Name E) :
    ∀ h ∈ E, (∃ t, pathElems h.Name = pathElems D.Name ++ e :: t) ∧
      ∃ d, (d = D ∨ d ∈ E) ∧ d.Typeflag = TypeDir ∧
        ∃ e, validName e ∧ h.Name = Join d.Name e := by
  cases E with
  | nil => intro h hh; simp at hh
  | cons h0 rest =>
    obtain ⟨⟨fi, _, hname, _⟩, hrest⟩ := hs.2 h0 rest rfl
    rw [if_pos hD, Base_Join srcPath e he] at hname
    have hp0 : pathElems h0.Name = pathElems D.Name ++ [e] := by
      rw [hname]; exact pathElems_Join D.Name e hD he
    intro h hh
    rcases List.mem_cons.mp hh with h1 | h1
    · subst h1
      exact ⟨⟨[], hp0⟩, D, Or.inl rfl, hdir, e, he, hname⟩
    · obtain ⟨⟨t, _, ht⟩, d, hd, hddir, hdn⟩ := hrest h h1
      refine ⟨⟨t, ?_⟩, d, Or.inr hd, hddir, hdn⟩
      rw [ht, hp0, List.append_assoc]
      rfl

theorem Shape_dir (w : World) (srcPath baseDir : String) (fi : FileInfo) (h : Header)
    (entries : List String) (F : List Header)
    (hst : Stat w srcPath = .ok fi) (hf : headerFor fi srcPath baseDir h)
    (hF : Forest h entries F) : Shape w srcPath baseDir (h :: F) := by
  constructor
  · unfold NoEarlierNested
    rw [List.pairwise_cons]
    refine ⟨?_, hF.1⟩
    intro b hb
    obtain ⟨⟨e, _, t, ht⟩, _⟩ := hF.2 b hb
    exact not_nested_of_longer (pathElems h.Name) (e :: t) _ _ rfl ht (by simp)
  · intro h0 rest heq
    simp only [List.cons.injEq] at heq
    obtain ⟨h1, h2⟩ := heq
    subst h1
    subst h2
    refine ⟨⟨fi, hst, hf⟩, ?_⟩
    intro x hx
    obtain ⟨⟨e, _, t, ht⟩, d, hd, hddir, hdn⟩ := hF.2 x hx
    refine ⟨⟨e :: t, by simp, ht⟩, d, ?_, hddir, hdn⟩
    rcases hd with hd | hd
    · rw [hd]; simp
    · exact List.mem_cons_of_mem _ hd

theorem writeToTar_shape (c : Codec) (w : World) (archive : Option (List String))
    (hwf : w.fs.WellFormed) :
    ∀ (fuel : Nat) (tw : TarWriter) (srcPath baseDir : String), ∃ E,
      headersOf (writeToTar c w archive fuel tw srcPath baseDir).2 = headersOf tw ++ E ∧
        Shape w srcPath baseDir E := by
  intro fuel
  induction fuel with
  | zero =>
    intro tw srcPath baseDir
    exact ⟨[], by simp [writeToTar], Shape_nil w srcPath baseDir⟩
  | succ fuel ih =>
    intro tw srcPath baseDir
    unfold writeToTar
    cases hst : Stat w srcPath with
    | error err => exact ⟨[], by simp, Shape_nil w srcPath baseDir⟩
    | ok fi =>
      simp only
      obtain ⟨nm, node⟩ := fi
      cases node with
      | file m d =>
        simp only [FileInfoHeader, FileInfo.IsDir, Bool.false_eq_true, if_false]
        have hf : headerFor ⟨nm, Node.file m d⟩ srcPath baseDir
            (if baseDir ≠ "" then
              ({ Name := Join baseDir (Base srcPath), Typeflag := TypeReg, Size := (d.length : Int),
                 Mode := (m : Int) } : Header)
             else { Name := nm, Typeflag := TypeReg, Size := (d.length : Int), Mode := (m : Int) }) := by
          unfold headerFor
          simp only [FileInfo.IsDir, Bool.false_eq_true, if_false]
          split_ifs <;> exact ⟨rfl, rfl⟩
        generalize (if baseDir ≠ "" then
              ({ Name := Join baseDir (Base srcPath), Typeflag := TypeReg, Size := (d.length : Int),
                 Mode := (m : Int) } : Header)
             else { Name := nm, Typeflag := TypeReg, Size := (d.length : Int), Mode := (m : Int) })
          = h at hf ⊢
        cases Open w srcPath with
        | error err => exact ⟨[], by simp, Shape_nil w srcPath baseDir⟩
        | ok file =>
          simp only [WriteHeader]
          split
          · have hf2 : headerFor ⟨nm, Node.file m d⟩ srcPath baseDir
                { h with Size := ((c.tarOpen tw).length : Int) } := hf
            cases c.checkHeader { h with Size := ((c.tarOpen tw).length : Int) } with
            | some err => exact ⟨[], by simp, Shape_nil w srcPath baseDir⟩
            | none =>
              refine ⟨[{ h with Size := ((c.tarOpen tw).length : Int) }], ?_,
                Shape_single w srcPath baseDir _ _ hst hf2⟩
              simp only
              rw [headersOf_write, headersOf_append]
              rfl
          cases c.checkHeader h with
          | some err => exact ⟨[], by simp, Shape_nil w srcPath baseDir⟩
          | none =>
            simp only [Copy]
            refine ⟨[h], ?_, Shape_single w srcPath baseDir _ h hst hf⟩
            have hw : headersOf ((tw ++ [(h, [])]).write file.data) = headersOf tw ++ [h] := by
              rw [headersOf_write, headersOf_append]
              rfl
            split
            · rename_i heq
              simp only [Prod.mk.injEq] at heq
              rw [← heq.2]
              exact hw
            · rename_i heq
              simp only [Prod.mk.injEq] at heq
              rw [← heq.2]
              exact hw
      | dir m =>
        simp only [FileInfoHeader, FileInfo.IsDir, if_true]
        have hf : headerFor ⟨nm, Node.dir m⟩ srcPath baseDir
            (if baseDir ≠ "" then
              ({ Name := Join baseDir (Base srcPath), Typeflag := TypeDir, Size := 0,
                 Mode := (m : Int) } : Header)
             else { Name := nm ++ "/", Typeflag := TypeDir, Size := 0, Mode := (m : Int) }) := by
          unfold headerFor
          simp only [FileInfo.IsDir, if_true]
          split_ifs <;> exact ⟨rfl, rfl⟩
        have hne : (if baseDir ≠ "" then
              ({ Name := Join baseDir (Base srcPath), Typeflag := TypeDir, Size := 0,
                 Mode := (m : Int) } : Header)
             else { Name := nm ++ "/", Typeflag := TypeDir, Size := 0, Mode := (m : Int) }).Name
            ≠ "" := by
          split_ifs with hb
          · exact Join_ne_empty _ _ hb
          · exact append_slash_ne_empty nm
        generalize (if baseDir ≠ "" then
              ({ Name := Join baseDir (Base srcPath), Typeflag := TypeDir, Size := 0,
                 Mode := (m : Int) } : Header)
             else { Name := nm ++ "/", Typeflag := TypeDir, Size := 0, Mode := (m : Int) })
          = h at hf hne ⊢
        have hdir : h.Typeflag = TypeDir := by
          have := hf.2
          simpa [FileInfo.IsDir] using this
        simp only [WriteHeader]
        cases c.checkHeader h with
        | some err => exact ⟨[], by simp, Shape_nil w srcPath baseDir⟩
        | none =>
          simp only
          cases hrd : ReadDir w srcPath with
          | error err =>
            exact ⟨[h], by simp [headersOf], Shape_single w srcPath baseDir _ h hst hf⟩
          | ok entries =>
            simp only
            obtain ⟨hvalid, hnd⟩ := ReadDir_valid w srcPath entries hwf hrd
            obtain ⟨F, hF1, hF2⟩ := forEntries_shape
              (fun t entry => writeToTar c w archive fuel t (Join srcPath entry) h.Name) h
              entries hnd
              (fun tw' e he => by
                obtain ⟨E, hE1, hE2⟩ := ih tw' (Join srcPath e) h.Name
                exact ⟨E, hE1, hE2.1, Shape_child w srcPath e h E hne hdir (hvalid e he) hE2⟩)
              (tw ++ [(h, [])])
            refine ⟨h :: F, ?_, Shape_dir w srcPath baseDir _ h entries F hst hf hF2⟩
            rw [hF1]
            simp [headersOf]

theorem Stat_ok_name (w : World) (p : String) (fi : FileInfo) (h : Stat w p = .ok fi) :
    fi.Name = Base p := by
  have hne : p ≠ "" := by
    intro hp
    subst hp
    simp [Stat, resolve] at h
  unfold Stat at h
  cases hr : resolve w p with
  | error e => simp [hr] at h
  | ok q =>
    simp only [hr] at h
    cases hf : w.fs.find q with
    | none => simp [hf] at h
    | some n =>
      simp only [hf] at h
      injection h with h
      rw [← h]
      simp [basename, Base, hne]

theorem headersOf_length (tw : TarWriter) : (headersOf tw).length = tw.length := by
  simp [headersOf]

theorem emittedAfter_eq (c : Codec) (w : World) (archive : Option (List String)) (fuel : Nat)
    (tw : TarWriter) (srcPath baseDir : String) (E : List Header)
    (h : headersOf (writeToTar c w archive fuel tw srcPath baseDir).2 = headersOf tw ++ E) :
    emittedAfter c w archive fuel tw srcPath baseDir = E := by
  unfold emittedAfter
  rw [h, ← headersOf_length tw, List.drop_left]

theorem emittedAfter_shape (c : Codec) (w : World) (archive : Option (List String))
    (fuel : Nat) (tw : TarWriter) (srcPath baseDir : String) (hwf : w.fs.WellFormed) :
    headersOf (writeToTar c w archive fuel tw srcPath baseDir).2 =
        headersOf tw ++ emittedAfter c w archive fuel tw srcPath baseDir ∧
      Shape w srcPath baseDir (emittedAfter c w archive fuel tw srcPath baseDir) := by
  obtain ⟨E, hE, hS⟩ := writeToTar_shape c w archive hwf fuel tw srcPath baseDir
  rw [emittedAfter_eq c w archive fuel tw srcPath baseDir E hE]
  exact ⟨hE, hS⟩

theorem emitted_shape (c : Codec) (w : World) (archive : Option (List String)) (fuel : Nat)
    (srcPath baseDir : String) (hwf : w.fs.WellFormed) :
    Shape w srcPath baseDir (emitted c w archive fuel srcPath baseDir) :=
  (emittedAfter_shape c w archive fuel [] srcPath baseDir hwf).2

theorem DirsFirst_of_NoEarlierNested (out : List Header) (h : NoEarlierNested out) :
    DirsFirst out := by
  intro i j hi hj _ hnest
  unfold NoEarlierNested at h
  rw [List.pairwise_iff_get] at h
  by_contra hlt
  rcases Nat.lt_or_eq_of_le (Nat.le_of_not_lt hlt) with h1 | h1
  · exact h ⟨j, hj⟩ ⟨i, hi⟩ h1 hnest
  · subst h1
    exact hnest.2 rfl

theorem walk_valid (fs : FS) (comps : List String) :
    ∀ (cur p : List String), (∀ e ∈ cur, validName e) → (∀ x ∈ comps, '/' ∉ x.data) →
      walk fs cur comps = .ok p → ∀ e ∈ p, validName e := by
  induction comps with
  | nil =>
    intro cur p hcur _ hw
    simp only [walk] at hw
    injection hw with hw
    rw [← hw]
    exact hcur
  | cons x rest ih =>
    intro cur p hcur hcomps hw
    have hrest : ∀ y ∈ rest, '/' ∉ y.data := fun y hy => hcomps y (by simp [hy])
    unfold walk at hw
    cases hf : fs.find cur with
    | none => simp [hf] at hw
    | some n =>
      cases n with
      | file m d => simp [hf] at hw
      | dir m =>
        simp only [hf] at hw
        by_cases h1 : x = "" ∨ x = "."
        · rw [if_pos h1] at hw
          exact ih cur p hcur hrest hw
        · rw [if_neg h1] at hw
          by_cases h2 : x = ".."
          · rw [if_pos h2] at hw
            exact ih _ p (fun e he => hcur e (List.mem_of_mem_dropLast he)) hrest hw
          · rw [if_neg h2] at hw
            refine ih _ p ?_ hrest hw
            intro e he
            rcases List.mem_append.mp he with h3 | h3
            · exact hcur e h3
            · rw [List.mem_singleton.mp h3]
              exact ⟨fun e0 => h1 (Or.inl e0), fun e0 => h1 (Or.inr e0), h2,
                hcomps x (by simp)⟩

theorem rawElements_no_slash (s : String) : ∀ x ∈ rawElements s, '/' ∉ x.data := by
  intro x hx
  unfold rawElements at hx
  rw [List.mem_map] at hx
  obtain ⟨y, hy, rfl⟩ := hx
  exact splitSlash_mem_no_slash s.data y hy

theorem resolve_valid (w : World) (path : String) (p : List String)
    (hcwd : ∀ e ∈ w.cwd, validName e) (h : resolve w path = .ok p) :
    ∀ e ∈ p, validName e := by
  unfold resolve at h
  split_ifs at h with h1 h2
  · exact walk_valid w.fs _ [] p (by simp) (rawElements_no_slash path) h
  · exact walk_valid w.fs _ w.cwd p hcwd (rawElements_no_slash path) h

theorem FS.set_wf (fs : FS) (p : List String) (n : Node) (hwf : fs.WellFormed)
    (hp : ∀ e ∈ p, validName e) : (fs.set p n).WellFormed := by
  intro q hq
  unfold FS.set at hq
  rcases List.mem_cons.mp hq with h | h
  · rw [h]; exact hp
  · exact hwf q (List.mem_filter.mp h).1

theorem OpenFile_wf (w w2 : World) (path : String) (perm : Nat) (f : List String)
    (hwf : w.fs.WellFormed) (hcwd : ∀ e ∈ w.cwd, validName e)
    (h : OpenFile w path perm = .ok (f, w2)) : w2.fs.WellFormed := by
  obtain ⟨hres, m, hw2⟩ := OpenFile_ok w w2 path perm f h
  rw [hw2]
  exact FS.set_wf w.fs f _ hwf (resolve_valid w path f hcwd hres)

theorem root_pathElems (b : String) (hp : plain b) (hd : b ≠ ".") :
    pathElems b = [b] ∧ pathElems (b ++ "/") = [b] := by
  have hne : b.data ≠ [] := fun h => hp.1 (String.ext h)
  have hclean : cleanElems false [b] = [b] := by
    by_cases h2 : b = ".."
    · subst h2; decide
    · simp [cleanElems, cleanStep_name false [] b hd h2]
  have habs : isAbs b = false := by
    unfold isAbs
    cases hb : b.data with
    | nil => exact absurd hb hne
    | cons x xs =>
      have hx : x ≠ '/' := fun e => hp.2 (by rw [hb, e]; simp)
      simp [hx]
  have habs2 : isAbs (b ++ "/") = false := by
    unfold isAbs
    rw [String.data_append]
    cases hb : b.data with
    | nil => exact absurd hb hne
    | cons x xs =>
      have hx : x ≠ '/' := fun e => hp.2 (by rw [hb, e]; simp)
      simp [hx]
  have hel2 : elements (b ++ "/") = [b] := by
    have hdat : (b ++ "/").data = b.data ++ '/' :: [] := by
      rw [String.data_append]
    rw [elements_data, hdat, splitSlash_append, splitSlash_no_slash _ hp.2]
    simp [splitSlash, hne]
  constructor
  · unfold pathElems
    rw [habs, elements_plain b hp, hclean]
  · unfold pathElems
    rw [habs2, hel2, hclean]

theorem Base_plain (s : String) (h1 : Base s ≠ ".") (h2 : Base s ≠ "/") : plain (Base s) := by
  unfold Base at h1 h2 ⊢
  by_cases hs : s = ""
  · simp [hs] at h1
  · rw [if_neg hs] at h1 h2 ⊢
    cases hl : (elements s).getLast? with
    | none => simp [hl] at h2
    | some x =>
      simp only [Option.getD_some]
      exact elements_all_plain s x (List.mem_of_getLast?_eq_some hl)

/-- Every header a root call writes starts with the base name of its source. -/
theorem Shape_root_names (w : World) (src : String) (E : List Header)
    (hS : Shape w src "" E) (h1 : Base src ≠ ".") (h2 : Base src ≠ "/") :
    ∀ h ∈ E, ∃ t, pathElems h.Name = Base src :: t := by
  cases E with
  | nil => intro h hh; simp at hh
  | cons h0 rest =>
    obtain ⟨⟨fi, hst, hname, _⟩, hrest⟩ := hS.2 h0 rest rfl
    have hb := root_pathElems (Base src) (Base_plain src h1 h2) h1
    have hp0 : pathElems h0.Name = [Base src] := by
      rw [hname, Stat_ok_name w src fi hst]
      simp only [ne_eq, not_true_eq_false, if_false]
      split_ifs
      · exact hb.2
      · exact hb.1
    intro h hh
    rcases List.mem_cons.mp hh with h3 | h3
    · rw [h3]; exact ⟨[], hp0⟩
    · obtain ⟨⟨t, _, ht⟩, _⟩ := hrest h h3
      exact ⟨t, by rw [ht, hp0]; rfl⟩

theorem forSources_pieces (c : Codec) (w : World) (archive : Option (List String))
    (fuel : Nat) (hwf : w.fs.WellFormed) (sources : List String) :
    ∀ tw, headersOf (forSources c w archive fuel sources tw).2 =
      headersOf tw ++ (sourcePieces c w archive fuel sources tw).flatten := by
  induction sources with
  | nil => intro tw; simp [forSources, sourcePieces]
  | cons src rest ih =>
    intro tw
    have hE := (emittedAfter_shape c w archive fuel tw src "" hwf).1
    unfold forSources sourcePieces
    rcases hres : writeToTar c w archive fuel tw src "" with ⟨st, tw1⟩
    rw [hres] at hE
    simp only at hE
    cases st with
    | done =>
      simp only [List.flatten_cons]
      rw [ih tw1, hE, List.append_assoc]
    | failed err => simp [hE]
    | unfinished => simp [hE]

theorem sourcePieces_ordered (c : Codec) (w : World) (archive : Option (List String))
    (fuel : Nat) (hwf : w.fs.WellFormed) (sources : List String)
    (hnd : (sources.map Base).Nodup) (hb : ∀ s ∈ sources, Base s ≠ "." ∧ Base s ≠ "/") :
    ∀ tw, NoEarlierNested (sourcePieces c w archive fuel sources tw).flatten ∧
      ∀ h ∈ (sourcePieces c w archive fuel sources tw).flatten,
        ∃ s ∈ sources, ∃ t, pathElems h.Name = Base s :: t := by
  induction sources with
  | nil =>
    intro tw
    exact ⟨by simp [sourcePieces, NoEarlierNested], by simp [sourcePieces]⟩
  | cons src rest ih =>
    intro tw
    have hnd2 : (rest.map Base).Nodup := (List.nodup_cons.mp hnd).2
    have hnot : Base src ∉ rest.map Base := (List.nodup_cons.mp hnd).1
    have hS := (emittedAfter_shape c w archive fuel tw src "" hwf).2
    have hnames := Shape_root_names w src _ hS (hb src (by simp)).1 (hb src (by simp)).2
    have hrest := ih hnd2 (fun s hs => hb s (by simp [hs]))
    unfold sourcePieces
    generalize emittedAfter c w archive fuel tw src "" = E at hS hnames
    have hfirst : ∀ h ∈ E, ∃ s ∈ src :: rest, ∃ t, pathElems h.Name = Base s :: t :=
      fun h hh => ⟨src, by simp, hnames h hh⟩
    rcases hres : writeToTar c w archive fuel tw src "" with ⟨st, tw1⟩
    cases st with
    | done =>
      simp only [List.flatten_cons]
      obtain ⟨hN2, hF2⟩ := hrest tw1
      constructor
      · unfold NoEarlierNested
        rw [List.pairwise_append]
        refine ⟨hS.1, hN2, ?_⟩
        intro a ha b hbm
        obtain ⟨t1, ht1⟩ := hnames a ha
        obtain ⟨s2, hs2, t2, ht2⟩ := hF2 b hbm
        refine not_nested_of_diff [] (Base src) (Base s2) t1 t2 _ _ ht1 ht2 ?_
        intro heq
        exact hnot (heq ▸ List.mem_map_of_mem Base hs2)
      · intro h hh
        rcases List.mem_append.mp hh with h1 | h1
        · exact hfirst h h1
        · obtain ⟨s2, hs2, t2, ht2⟩ := hF2 h h1
          exact ⟨s2, by simp [hs2], t2, ht2⟩
    | failed err =>
      simp only [List.flatten_cons, List.flatten_nil, List.append_nil]
      exact ⟨hS.1, hfirst⟩
    | unfinished =>
      simp only [List.flatten_cons, List.flatten_nil, List.append_nil]
      exact ⟨hS.1, hfirst⟩

/-- What the loop of `iterateTarEntries` does when the handler fails after it
has handled the entries before without error. -/
theorem iterateLoop_abort (tarPath : String) (op : tarOp) (final : GoError)
    (hk : Header) (pk : List Byte) (post : List (Header × List Byte)) (e : GoError)
    (pre : List (Header × List Byte)) :
    ∀ (w wk w2 : World), handledWorld tarPath op pre w = some wk →
      op tarPath (payloadReader hk pk) hk wk = (some e, w2) →
      (iterateLoop tarPath op final (pre ++ (hk, pk) :: post) w).err =
          some (.errorf "failed running operation with: %w" e) ∧
        (iterateLoop tarPath op final (pre ++ (hk, pk) :: post) w).world = w2 ∧
        (iterateLoop tarPath op final (pre ++ (hk, pk) :: post) w).calls =
          pre.map (fun x => (x.1, none)) ++ [(hk, some e)] := by
  induction pre with
  | nil =>
    intro w wk w2 hpre hfail
    simp only [handledWorld, Option.some.injEq] at hpre
    subst hpre
    simp [iterateLoop, hfail]
  | cons x rest ih =>
    intro w wk w2 hpre hfail
    obtain ⟨h0, p0⟩ := x
    unfold handledWorld at hpre
    rcases hop : op tarPath (payloadReader h0 p0) h0 w with ⟨r, w1⟩
    rw [hop] at hpre
    cases r with
    | some err => simp at hpre
    | none =>
      simp only at hpre
      have step := ih w1 wk w2 hpre hfail
      simp only [List.cons_append, iterateLoop, hop, List.map_cons]
      exact ⟨step.1, step.2.1, congrArg (fun l => (h0, none) :: l) step.2.2⟩

/-! ## The claims -/

/-- C1: for an uncompressed archive that decodes to the entries `entries`
followed by the end marker, `iterateTarEntries` with `listTarFiles` returns no
error, calls the handler once on every header in stream order, and appends to
standard output exactly the names, one per line. -/
theorem list_prints_every_name (c : Codec) (w : World) (tarPath : String) (file : Reader)
    (entries : List (Header × List Byte))
    (hopen : Open w tarPath = .ok file)
    (hdec : c.untar file = ⟨entries, .EOF⟩) :
    (iterateTarEntries c tarPath "" listTarFiles w).err = none ∧
      (iterateTarEntries c tarPath "" listTarFiles w).handled = headersOf entries ∧
      (iterateTarEntries c tarPath "" listTarFiles w).world.stdout =
        w.stdout ++ nameLines ((headersOf entries).map (fun h => h.Name)) ∧
      (iterateTarEntries c tarPath "" listTarFiles w).world.fs = w.fs := by
  have loop := iterateLoop_list tarPath entries w
  have hraw : setCompressorType c file "" = .ok file := by
    simp [setCompressorType]
  simp only [iterateTarEntries, hopen, hraw]
  rw [hdec]
  simp [loop.1, loop.2.1, loop.2.2, Run.handled, headersOf, Function.comp_def]

/-- The archive of the test prints its three names. -/
theorem list_prints_every_name_witness :
    (iterateTarEntries (fixedCodec ⟨filesTar, .EOF⟩) "testdata/files.tar" "" listTarFiles
        testWorld).err = none ∧
      (iterateTarEntries (fixedCodec ⟨filesTar, .EOF⟩) "testdata/files.tar" "" listTarFiles
        testWorld).world.stdout = "file1.txt\nfile2.txt\nfile3.txt\n" := by
  have h := list_prints_every_name (fixedCodec ⟨filesTar, .EOF⟩) testWorld
    "testdata/files.tar" ⟨[102, 105, 108, 101], .EOF⟩ filesTar (by rfl) (by rfl)
  exact ⟨h.1, h.2.2.1.trans (by decide)⟩

/-- C2, counterexample: a stream in which `Next` reports
`io.ErrUnexpectedEOF` after one header is iterated with success. -/
theorem truncated_stream_succeeds :
    (iterateTarEntries
        (fixedCodec ⟨[(⟨"file1.txt", TypeReg, 2, 0o644⟩, [49])], .ErrUnexpectedEOF⟩)
        "testdata/files.tar" "" listTarFiles testWorld).err = none := by
  decide

/-- C2, amended: when the archive opens and no handler call fails, every
decoded header is handled, and `iterateTarEntries` returns nil both when
`Next` ends with `io.EOF` and when it ends with `io.ErrUnexpectedEOF`; any
other error of `Next` is returned wrapped. -/
theorem iterate_result_by_final_error (c : Codec) (w : World) (tarPath compressorType : String)
    (op : tarOp) (file reader : Reader)
    (hopen : Open w tarPath = .ok file)
    (hcomp : setCompressorType c file compressorType = .ok reader)
    (hops : ∀ call ∈ (iterateTarEntries c tarPath compressorType op w).calls, call.2 = none) :
    (iterateTarEntries c tarPath compressorType op w).calls.length =
        (c.untar reader).entries.length ∧
      (iterateTarEntries c tarPath compressorType op w).err =
        (if (c.untar reader).final = .EOF ∨ (c.untar reader).final = .ErrUnexpectedEOF then none
         else some (.errorf "failed reading tar with: %w" (c.untar reader).final)) := by
  simp only [iterateTarEntries, hopen, hcomp] at hops ⊢
  exact iterateLoop_no_handler_error tarPath op _ _ w hops

/-- A stream that ends in a malformed header is an error. -/
theorem iterate_result_by_final_error_witness :
    (iterateTarEntries (fixedCodec ⟨filesTar, .tarErrHeader⟩) "testdata/files.tar" ""
        listTarFiles testWorld).calls.length = 3 ∧
      (iterateTarEntries (fixedCodec ⟨filesTar, .tarErrHeader⟩) "testdata/files.tar" ""
        listTarFiles testWorld).err =
        some (.errorf "failed reading tar with: %w" .tarErrHeader) :=
  iterate_result_by_final_error (fixedCodec ⟨filesTar, .tarErrHeader⟩) testWorld
    "testdata/files.tar" "" listTarFiles ⟨[102, 105, 108, 101], .EOF⟩
    ⟨[102, 105, 108, 101], .EOF⟩ (by rfl) (by rfl) (by decide)

/-- C6: when the handler has handled the decoded headers before number
`k + 1` without error (`pre`, with `k` entries) and returns the error `e` on
header number `k + 1`, `iterateTarEntries` returns `e` wrapped, the world is
the one that failing call left, so the handler ran on no later header, and
the handler was called on exactly the first `k + 1` headers, in order. -/
theorem handler_error_aborts (c : Codec) (w wk w2 : World) (tarPath compressorType : String)
    (op : tarOp) (file reader : Reader) (pre post : List (Header × List Byte))
    (hk : Header) (pk : List Byte) (e : GoError)
    (hopen : Open w tarPath = .ok file)
    (hcomp : setCompressorType c file compressorType = .ok reader)
    (hdec : (c.untar reader).entries = pre ++ (hk, pk) :: post)
    (hpre : handledWorld tarPath op pre w = some wk)
    (hfail : op tarPath (payloadReader hk pk) hk wk = (some e, w2)) :
    (iterateTarEntries c tarPath compressorType op w).err =
        some (.errorf "failed running operation with: %w" e) ∧
      (iterateTarEntries c tarPath compressorType op w).world = w2 ∧
      (iterateTarEntries c tarPath compressorType op w).handled = headersOf pre ++ [hk] ∧
      (iterateTarEntries c tarPath compressorType op w).calls.length = pre.length + 1 := by
  have key := iterateLoop_abort tarPath op (c.untar reader).final hk pk post e pre w wk w2
    hpre hfail
  simp only [iterateTarEntries, hopen, hcomp, hdec]
  refine ⟨key.1, key.2.1, ?_, ?_⟩
  · simp [Run.handled, headersOf, key.2.2]
  · simp [key.2.2]

/-- A handler that prints every name and fails on the second of three
entries has printed two names when the run ends. -/
theorem handler_error_aborts_witness :
    (iterateTarEntries (fixedCodec ⟨filesTar, .EOF⟩) "testdata/files.tar" "" failOnSecond
        testWorld).err =
        some (.errorf "failed running operation with: %w" .tarErrHeader) ∧
      (iterateTarEntries (fixedCodec ⟨filesTar, .EOF⟩) "testdata/files.tar" "" failOnSecond
        testWorld).world = { testWorld with stdout := "file1.txt\nfile2.txt\n" } ∧
      (iterateTarEntries (fixedCodec ⟨filesTar, .EOF⟩) "testdata/files.tar" "" failOnSecond
        testWorld).handled =
        headersOf [(⟨"file1.txt", TypeReg, 2, 0o644⟩, [49, 10])] ++
          [⟨"file2.txt", TypeReg, 2, 0o644⟩] ∧
      (iterateTarEntries (fixedCodec ⟨filesTar, .EOF⟩) "testdata/files.tar" "" failOnSecond
        testWorld).calls.length = 1 + 1 :=
  handler_error_aborts (fixedCodec ⟨filesTar, .EOF⟩) testWorld
    { testWorld with stdout := "file1.txt\n" } { testWorld with stdout := "file1.txt\nfile2.txt\n" }
    "testdata/files.tar" "" failOnSecond ⟨[102, 105, 108, 101], .EOF⟩
    ⟨[102, 105, 108, 101], .EOF⟩ [(⟨"file1.txt", TypeReg, 2, 0o644⟩, [49, 10])]
    [(⟨"file3.txt", TypeReg, 2, 0o644⟩, [51, 10])] ⟨"file2.txt", TypeReg, 2, 0o644⟩ [50, 10]
    .tarErrHeader (by rfl) (by rfl) (by rfl) (by decide) (by decide)

/-- C7, counterexample: the unknown kind `bzip2` gives the file itself and
no error. -/
theorem unknown_kind_is_no_compression :
    setCompressorType (fixedCodec ⟨[], .EOF⟩) ⟨[66, 90, 104], .EOF⟩ "bzip2" =
      .ok ⟨[66, 90, 104], .EOF⟩ := by
  rfl

/-- C7, amended: for every kind name other than `gzip`, known or not,
`setCompressorType` returns the file unchanged and no error; for `gzip` it
returns what `gzip.NewReader` returns. -/
theorem setCompressorType_cases (c : Codec) (file : Reader) (compressorType : String) :
    (compressorType ≠ "gzip" → setCompressorType c file compressorType = .ok file) ∧
      (compressorType = "gzip" → setCompressorType c file compressorType = c.gunzip file) := by
  constructor
  · intro hne
    simp [setCompressorType, hne]
  · intro heq
    simp [setCompressorType, heq]

/-- C8: for a Regular header, a payload reader that yields fewer than
`Size` bytes makes `extractTarFile` return an error; a reader that yields at
least `Size` bytes has exactly its first `Size` bytes in the target file
(the file `OpenFile` opened) and the call returns nil. -/
theorem extract_copies_exactly_size (w : World) (dst : String) (r : Reader) (h : Header)
    (hreg : h.Typeflag = TypeReg) :
    ((r.data.length : Int) < h.Size → (extractTarFile dst r h w).1 ≠ none) ∧
      (h.Size ≤ (r.data.length : Int) → ∀ (f : List String) (w2 : World),
        (MkdirAll w (Dir "") 0o755).1 = none →
        OpenFile w (Join "" h.Name) (FileMode h.Mode) = .ok (f, w2) →
        (extractTarFile dst r h w).1 = none ∧
          ∃ m, (extractTarFile dst r h w).2.fs.find f =
            some (Node.file m (r.data.take h.Size.toNat))) := by
  constructor
  · intro hlt
    have hd : Dir "" = "." := by decide
    rcases MkdirAll_dot w 0o755 with h1 | ⟨e, h1⟩
    · cases ho : OpenFile w (Join "" h.Name) (FileMode h.Mode) with
      | error e =>
        rw [extractTarFile_reg dst r h w hreg, h1]
        simp [ho]
      | ok fw =>
        obtain ⟨f, w2⟩ := fw
        have key := extractTarFile_reg_opened dst r h w w2 f hreg (by rw [hd, h1]) ho
        rw [key.1]
        simp [hlt]
    · rw [extractTarFile_reg dst r h w hreg, h1]
      simp
  · intro hle f w2 hmk ho
    have key := extractTarFile_reg_opened dst r h w w2 f hreg hmk ho
    have hnl : ¬ (r.data.length : Int) < h.Size := by omega
    obtain ⟨_, m, hw2⟩ := OpenFile_ok w w2 _ _ f ho
    refine ⟨by rw [key.1]; simp [hnl], m, ?_⟩
    rw [key.2, hw2]
    have := FS.find_append_self (w.fs.set f (Node.file m [])) f m [] (r.data.take h.Size.toNat)
      (FS.find_set_self _ _ _)
    simpa using this

/-- A payload of three bytes under a header of size 5 is an error; under a
header of size 2 the file holds the first two bytes. -/
theorem extract_copies_exactly_size_witness :
    (extractTarFile "" ⟨[1, 2, 3], .ErrUnexpectedEOF⟩ ⟨"e.txt", TypeReg, 5, 0o644⟩
        destWorld).1 ≠ none ∧
      (extractTarFile "" ⟨[1, 2, 3], .EOF⟩ ⟨"e.txt", TypeReg, 2, 0o644⟩ destWorld).1 = none ∧
      ∃ m, (extractTarFile "" ⟨[1, 2, 3], .EOF⟩ ⟨"e.txt", TypeReg, 2, 0o644⟩
        destWorld).2.fs.find ["work", "dest", "e.txt"] = some (Node.file m [1, 2]) :=
  ⟨(extract_copies_exactly_size destWorld "" ⟨[1, 2, 3], .ErrUnexpectedEOF⟩
      ⟨"e.txt", TypeReg, 5, 0o644⟩ rfl).1 (by decide),
    (extract_copies_exactly_size destWorld "" ⟨[1, 2, 3], .EOF⟩
      ⟨"e.txt", TypeReg, 2, 0o644⟩ rfl).2 (by decide) ["work", "dest", "e.txt"] _
      (by decide) rfl⟩

/-- C4, counterexample: in the working directory `/work/dest`, the Regular
entries `../escape.txt` and `/etc/passwd` are extracted without error; the
first creates `/work/escape.txt`, the second overwrites `/etc/passwd`. -/
theorem unsafe_names_are_extracted :
    (extractTarFile "/work/dest" ⟨[1, 2, 3], .EOF⟩ ⟨"../escape.txt", TypeReg, 3, 0o644⟩
        destWorld).1 = none ∧
      destWorld.fs.find ["work", "escape.txt"] = none ∧
      (extractTarFile "/work/dest" ⟨[1, 2, 3], .EOF⟩ ⟨"../escape.txt", TypeReg, 3, 0o644⟩
        destWorld).2.fs.find ["work", "escape.txt"] = some (Node.file 0o644 [1, 2, 3]) ∧
      (extractTarFile "/work/dest" ⟨[1, 2, 3], .EOF⟩ ⟨"/etc/passwd", TypeReg, 3, 0o600⟩
        destWorld).1 = none ∧
      (extractTarFile "/work/dest" ⟨[1, 2, 3], .EOF⟩ ⟨"/etc/passwd", TypeReg, 3, 0o600⟩
        destWorld).2.fs.find ["etc", "passwd"] = some (Node.file 0o644 [1, 2, 3]) := by
  decide

/-- C4, amended: `extractTarFile` does not look at the name of a Regular
entry.  It returns nil exactly when the working directory exists, the file
at `filepath.Join("", name)` can be opened and the payload has `Size` bytes,
whether or not the name has `..` elements or is absolute. -/
theorem extract_regular_unchecked (w : World) (dst : String) (r : Reader) (h : Header)
    (hreg : h.Typeflag = TypeReg) :
    (extractTarFile dst r h w).1 = none ↔
      ((MkdirAll w (Dir "") 0o755).1 = none ∧
        (∃ f w2, OpenFile w (Join "" h.Name) (FileMode h.Mode) = .ok (f, w2)) ∧
        ¬ (r.data.length : Int) < h.Size) := by
  have hd : Dir "" = "." := by decide
  constructor
  · intro hnone
    rcases MkdirAll_dot w 0o755 with h1 | ⟨e, h1⟩
    · cases ho : OpenFile w (Join "" h.Name) (FileMode h.Mode) with
      | error e =>
        rw [extractTarFile_reg dst r h w hreg, h1] at hnone
        simp [ho] at hnone
      | ok fw =>
        obtain ⟨f, w2⟩ := fw
        have key := extractTarFile_reg_opened dst r h w w2 f hreg (by rw [hd, h1]) ho
        rw [key.1] at hnone
        refine ⟨by rw [hd, h1], ⟨f, w2, rfl⟩, ?_⟩
        intro hlt
        simp [hlt] at hnone
    · rw [extractTarFile_reg dst r h w hreg, h1] at hnone
      simp at hnone
  · rintro ⟨hmk, ⟨f, w2, ho⟩, hnl⟩
    have key := extractTarFile_reg_opened dst r h w w2 f hreg hmk ho
    rw [key.1]
    simp [hnl]

/-- The entry `../escape.txt` is extracted. -/
theorem extract_regular_unchecked_witness :
    (extractTarFile "/work/dest" ⟨[1, 2, 3], .EOF⟩ ⟨"../escape.txt", TypeReg, 3, 0o644⟩
        destWorld).1 = none :=
  (extract_regular_unchecked destWorld "/work/dest" ⟨[1, 2, 3], .EOF⟩
    ⟨"../escape.txt", TypeReg, 3, 0o644⟩ rfl).2 ⟨by decide, ⟨_, _, rfl⟩, by decide⟩

/-- C10, counterexample: with destination root `out`, the Regular entry
`a.txt` is created in the working directory, not in `out`. -/
theorem destination_is_ignored :
    Join "out" "a.txt" = "out/a.txt" ∧
      (extractTarFile "out" ⟨[1, 2], .EOF⟩ ⟨"a.txt", TypeReg, 2, 0o644⟩
        destWorld).1 = none ∧
      (extractTarFile "out" ⟨[1, 2], .EOF⟩ ⟨"a.txt", TypeReg, 2, 0o644⟩
        destWorld).2.fs.find ["work", "dest", "out", "a.txt"] = none ∧
      (extractTarFile "out" ⟨[1, 2], .EOF⟩ ⟨"a.txt", TypeReg, 2, 0o644⟩
        destWorld).2.fs.find ["work", "dest", "a.txt"] = some (Node.file 0o644 [1, 2]) := by
  decide

/-- C10, amended: for a Regular header, whatever the destination argument,
the one object `extractTarFile` creates or changes is the file that
`filepath.Join("", name)` names from the working directory. -/
theorem extract_regular_target (w w2 : World) (dst : String) (r : Reader) (h : Header)
    (f : List String) (hreg : h.Typeflag = TypeReg)
    (hmk : (MkdirAll w (Dir "") 0o755).1 = none)
    (hopen : OpenFile w (Join "" h.Name) (FileMode h.Mode) = .ok (f, w2)) :
    resolve w (Join "" h.Name) = .ok f ∧
      (∃ m d, (extractTarFile dst r h w).2.fs.find f = some (Node.file m d)) ∧
      ∀ q, q ≠ f → (extractTarFile dst r h w).2.fs.find q = w.fs.find q := by
  have key := extractTarFile_reg_opened dst r h w w2 f hreg hmk hopen
  obtain ⟨hres, m, hw2⟩ := OpenFile_ok w w2 _ _ f hopen
  refine ⟨hres, ⟨m, r.data.take h.Size.toNat, ?_⟩, ?_⟩
  · rw [key.2, hw2]
    have := FS.find_append_self (w.fs.set f (Node.file m [])) f m [] (r.data.take h.Size.toNat)
      (FS.find_set_self _ _ _)
    simpa using this
  · intro q hq
    rw [key.2, hw2]
    simp only
    rw [FS.find_append_ne _ _ _ _ hq, FS.find_set_ne _ _ _ _ hq]

/-- With destination `out`, the entry `a.txt` goes to `/work/dest/a.txt`. -/
theorem extract_regular_target_witness :
    resolve destWorld (Join "" "a.txt") = .ok ["work", "dest", "a.txt"] ∧
      (∃ m d, (extractTarFile "out" ⟨[1, 2], .EOF⟩ ⟨"a.txt", TypeReg, 2, 0o644⟩
        destWorld).2.fs.find ["work", "dest", "a.txt"] = some (Node.file m d)) ∧
      ∀ q, q ≠ ["work", "dest", "a.txt"] →
        (extractTarFile "out" ⟨[1, 2], .EOF⟩ ⟨"a.txt", TypeReg, 2, 0o644⟩
          destWorld).2.fs.find q = destWorld.fs.find q :=
  extract_regular_target destWorld _ "out" ⟨[1, 2], .EOF⟩ ⟨"a.txt", TypeReg, 2, 0o644⟩
    ["work", "dest", "a.txt"] rfl (by decide) rfl

/-- C3, at the failing input: `createTarFile` on the tree `/work/tree`
writes a directory header first, and extracting the archive stops with an
error on that first entry: `os.MkdirAll("")` fails. -/
theorem roundtrip_fails_on_directory :
    (createTarFile (fixedCodec ⟨treeEntries, .EOF⟩) 3 destWorld "out.tar"
        ["../tree"]).status = .done ∧
      (createTarFile (fixedCodec ⟨treeEntries, .EOF⟩) 3 destWorld "out.tar"
        ["../tree"]).written = treeEntries ∧
      (iterateTarEntries (fixedCodec ⟨treeEntries, .EOF⟩) "out.tar" "" extractTarFile
        (createTarFile (fixedCodec ⟨treeEntries, .EOF⟩) 3 destWorld "out.tar"
          ["../tree"]).world).err =
        some (.errorf "failed running operation with: %w"
          (.errorf "could not create dir in %s with %w" (.pathError "mkdir" "" .ENOENT))) ∧
      (iterateTarEntries (fixedCodec ⟨treeEntries, .EOF⟩) "out.tar" "" extractTarFile
        (createTarFile (fixedCodec ⟨treeEntries, .EOF⟩) 3 destWorld "out.tar"
          ["../tree"]).world).handled = [⟨"tree/", TypeDir, 0, 0o755⟩] := by
  decide

/-- C5, counterexample: in the archives `createTarFile` writes here, a
directory header comes after a header whose name is nested under its name.
Two source paths with the same base name write `tree/`, `tree/a.txt`, ...
twice, so `tree/` at position 4 follows `tree/a.txt` at position 1.  A source
path `.` or `/` written after the source `out` puts the header `./` or `//`,
under which `out/` is nested, at position 1 after `out/` at position 0 (the
run over `/` later reaches the archive itself and ends with
`tar.ErrWriteTooLong`). -/
theorem repeated_source_breaks_order :
    ((createTarFile (fixedCodec ⟨[], .EOF⟩) 3 destWorld "out.tar"
          ["../tree", "/work/tree"]).status = .done ∧
        ¬ DirsFirst (headersOf (createTarFile (fixedCodec ⟨[], .EOF⟩) 3 destWorld "out.tar"
          ["../tree", "/work/tree"]).written)) ∧
      ((createTarFile (fixedCodec ⟨[], .EOF⟩) 3 destWorld "../out.tar"
          ["out", "."]).status = .done ∧
        ¬ DirsFirst (headersOf (createTarFile (fixedCodec ⟨[], .EOF⟩) 3 destWorld "../out.tar"
          ["out", "."]).written)) ∧
      ((createTarFile (fixedCodec ⟨[], .EOF⟩) 6 destWorld "../out.tar"
          ["out", "/"]).status = .failed .tarErrWriteTooLong ∧
        ¬ DirsFirst (headersOf (createTarFile (fixedCodec ⟨[], .EOF⟩) 6 destWorld "../out.tar"
          ["out", "/"]).written)) := by
  refine ⟨⟨by decide, ?_⟩, ⟨by decide, ?_⟩, ⟨by decide, ?_⟩⟩
  · intro h
    have h41 := h 4 1 (by decide) (by decide) (by decide) (by unfold nestedUnder; decide)
    exact absurd h41 (by decide)
  · intro h
    have h10 := h 1 0 (by decide) (by decide) (by decide) (by unfold nestedUnder; decide)
    exact absurd h10 (by decide)
  · intro h
    have h10 := h 1 0 (by decide) (by decide) (by decide) (by unfold nestedUnder; decide)
    exact absurd h10 (by decide)

/-- C5, amended: in the headers one call of `writeToTar` adds for a source
path and prefix, every directory header comes strictly before every header
whose name is nested under its name.  The headers of an archive of
`createTarFile` are these sequences for its source paths, one after the other
in argument order up to the first call that fails, and in the whole archive
the order holds when the base names of the source paths are pairwise distinct
and none of them is `.` or `/`. -/
theorem directory_header_before_nested (c : Codec) (w : World) (fuel : Nat)
    (hwf : w.fs.WellFormed) (hcwd : ∀ e ∈ w.cwd, validName e) :
    (∀ archive tw srcPath baseDir,
        DirsFirst (emittedAfter c w archive fuel tw srcPath baseDir)) ∧
      ∀ tarPath sources dst w1, OpenFile w tarPath 0o666 = .ok (dst, w1) →
        headersOf (createTarFile c fuel w tarPath sources).written =
            (sourcePieces c w1 (some dst) fuel sources []).flatten ∧
          ((sources.map Base).Nodup → (∀ s ∈ sources, Base s ≠ "." ∧ Base s ≠ "/") →
            DirsFirst (headersOf (createTarFile c fuel w tarPath sources).written)) := by
  constructor
  · intro archive tw srcPath baseDir
    exact DirsFirst_of_NoEarlierNested _
      (emittedAfter_shape c w archive fuel tw srcPath baseDir hwf).2.1
  · intro tarPath sources dst w1 ho
    have hwf1 := OpenFile_wf w w1 tarPath _ dst hwf hcwd ho
    have hpieces := forSources_pieces c w1 (some dst) fuel hwf1 sources []
    have hwritten : headersOf (createTarFile c fuel w tarPath sources).written =
        (sourcePieces c w1 (some dst) fuel sources []).flatten := by
      simp only [createTarFile, ho]
      rw [hpieces]
      rfl
    refine ⟨hwritten, ?_⟩
    intro hnd hb
    rw [hwritten]
    exact DirsFirst_of_NoEarlierNested _
      (sourcePieces_ordered c w1 (some dst) fuel hwf1 sources hnd hb []).1

/-- The tree `/work/tree` is emitted with its directories first, and so is
the archive of the two sources `../tree` and `out`, which is the sequence
for `../tree` followed by the sequence for `out`. -/
theorem directory_header_before_nested_witness :
    DirsFirst (emittedAfter (fixedCodec ⟨[], .EOF⟩) destWorld none 3 [] "../tree" "") ∧
      headersOf (createTarFile (fixedCodec ⟨[], .EOF⟩) 3 destWorld "out.tar"
          ["../tree", "out"]).written =
        [headersOf treeEntries, [⟨"out/", TypeDir, 0, 0o755⟩]].flatten ∧
      DirsFirst (headersOf (createTarFile (fixedCodec ⟨[], .EOF⟩) 3 destWorld "out.tar"
        ["../tree", "out"]).written) :=
  ⟨(directory_header_before_nested (fixedCodec ⟨[], .EOF⟩) destWorld 3
      (by unfold FS.WellFormed validName destWorld; decide)
      (by unfold validName destWorld; decide)).1 none [] "../tree" "",
    ((directory_header_before_nested (fixedCodec ⟨[], .EOF⟩) destWorld 3
      (by unfold FS.WellFormed validName destWorld; decide)
      (by unfold validName destWorld; decide)).2 "out.tar" ["../tree", "out"] _ _ rfl).1.trans
      (by decide),
    ((directory_header_before_nested (fixedCodec ⟨[], .EOF⟩) destWorld 3
      (by unfold FS.WellFormed validName destWorld; decide)
      (by unfold validName destWorld; decide)).2 "out.tar" ["../tree", "out"] _ _ rfl).2
      (by decide) (by decide)⟩

/-- C9, counterexample: for the directory `../tree` and the empty prefix the
emitted name is `tree/`, the base name followed by a slash. -/
theorem root_directory_name_has_slash :
    (emitted (fixedCodec ⟨[], .EOF⟩) destWorld none 3 "../tree" "").head?.map
        (fun h => h.Name) =
        some "tree/" ∧
      Base "../tree" = "tree" := by
  decide

/-- C9, amended: the first header `writeToTar` emits for a source path is
named `filepath.Join(prefix, Base(path))` when the prefix is not empty; with
the empty prefix it is named `Base(path)` for a file and `Base(path)`
followed by a slash for a directory.  Every later header is named
`filepath.Join(D.Name, b)` for a directory header `D` of the sequence and
its own base name `b`. -/
theorem entry_names (c : Codec) (w : World) (archive : Option (List String)) (fuel : Nat)
    (srcPath baseDir : String) (h0 : Header) (rest : List Header)
    (hwf : w.fs.WellFormed)
    (hout : emitted c w archive fuel srcPath baseDir = h0 :: rest) :
    (∃ fi, Stat w srcPath = .ok fi ∧
        h0.Name = (if baseDir ≠ "" then Join baseDir (Base srcPath)
                   else if fi.IsDir then Base srcPath ++ "/" else Base srcPath)) ∧
      ∀ h ∈ rest, ∃ d ∈ h0 :: rest, d.Typeflag = TypeDir ∧
        h.Name = Join d.Name (Base h.Name) := by
  have hS := emitted_shape c w archive fuel srcPath baseDir hwf
  rw [hout] at hS
  obtain ⟨⟨fi, hst, hname, _⟩, hrest⟩ := hS.2 h0 rest rfl
  constructor
  · refine ⟨fi, hst, ?_⟩
    rw [hname, Stat_ok_name w srcPath fi hst]
  · intro h hh
    obtain ⟨_, d, hd, hdir, e, he, hn⟩ := hrest h hh
    refine ⟨d, hd, hdir, ?_⟩
    rw [hn, Base_Join d.Name e he]

/-- The names emitted for the tree `/work/tree`. -/
theorem entry_names_witness :
    (∃ fi, Stat destWorld "../tree" = .ok fi ∧
        "tree/" = (if ("" : String) ≠ "" then Join "" (Base "../tree")
                   else if fi.IsDir then Base "../tree" ++ "/" else Base "../tree")) ∧
      ∀ h ∈ [(⟨"tree/a.txt", TypeReg, 2, 0o644⟩ : Header), ⟨"tree/sub", TypeDir, 0, 0o700⟩,
          ⟨"tree/sub/b.txt", TypeReg, 2, 0o600⟩],
        ∃ d ∈ [(⟨"tree/", TypeDir, 0, 0o755⟩ : Header), ⟨"tree/a.txt", TypeReg, 2, 0o644⟩,
          ⟨"tree/sub", TypeDir, 0, 0o700⟩, ⟨"tree/sub/b.txt", TypeReg, 2, 0o600⟩],
          d.Typeflag = TypeDir ∧ h.Name = Join d.Name (Base h.Name) :=
  entry_names (fixedCodec ⟨[], .EOF⟩) destWorld none 3 "../tree" ""
    ⟨"tree/", TypeDir, 0, 0o755⟩ _
    (by unfold FS.WellFormed validName destWorld; decide) (by decide)

end Gar
